import Mathlib

/-!
Verification of the Moccarduino event-pipeline and peripheral-reconstruction
engine against its natural-language specification.

The definitions below are a shallow embedding of the C++ sources in
src/shared (helpers.hpp, time_series.hpp, led_display.hpp, emulator.hpp):
machine integers become Nat (bytes are Nats kept below 256 by the
operations themselves), fixed-size arrays become lists, fallible member
functions return Except, and loops become structural recursions (with an
explicit fuel argument equal to the loop bound where the C++ loop is
bounded by a runtime quantity).
-/

namespace Moccarduino

/-! ## Arduino constants (constants.hpp, funshield.h) -/

def HIGH : Int := 1
def LOW : Int := 0
def INPUT : Int := 0
def OUTPUT : Int := 1
/-- funshield.h: the shield is wired active-low, so ON = LOW and OFF = HIGH. -/
def ON : Int := LOW
def OFF : Int := HIGH

/-- constants.hpp: bitRead(value, bit) is ((value) >> (bit)) & 0x01. -/
def bitRead (value bit : Nat) : Nat := (value >>> bit) &&& 1

/-! ## Generic little-endian bit-sequence value

natOfBits f off c is the number whose k-th binary digit (k < c) is the bit
f (off + k).  It is the common mathematical value of the loops in
BitArray::get and ShiftRegister::get, introduced only for the proofs.
-/

def natOfBits (f : Nat → Bool) : Nat → Nat → Nat
  | _, 0 => 0
  | off, c + 1 => (if f off then 1 else 0) + 2 * natOfBits f (off + 1) c

theorem natOfBits_congr {f g : Nat → Bool} :
    ∀ off c, (∀ m, m < c → f (off + m) = g (off + m)) →
      natOfBits f off c = natOfBits g off c := by
  intro off c
  induction c generalizing off with
  | zero => intro _; rfl
  | succ c ih =>
    intro h
    have h0 : f off = g off := by simpa using h 0 (Nat.succ_pos c)
    have hr : natOfBits f (off + 1) c = natOfBits g (off + 1) c := by
      apply ih
      intro m hm
      have := h (m + 1) (by omega)
      simpa [Nat.add_assoc, Nat.add_comm 1 m] using this
    simp [natOfBits, h0, hr]

theorem natOfBits_lt (f : Nat → Bool) : ∀ c off, natOfBits f off c < 2 ^ c := by
  intro c
  induction c with
  | zero => intro off; simp [natOfBits]
  | succ c ih =>
    intro off
    have h := ih (off + 1)
    have h2 : (2:Nat) ^ (c + 1) = 2 * 2 ^ c := by rw [pow_succ]; ring
    by_cases hb : f off <;> simp [natOfBits, hb, h2] <;> omega

theorem natOfBits_succ_high (f : Nat → Bool) :
    ∀ c off, natOfBits f off (c + 1) =
      natOfBits f off c + (if f (off + c) then 1 else 0) * 2 ^ c := by
  intro c
  induction c with
  | zero => intro off; simp [natOfBits]
  | succ c ih =>
    intro off
    have h1 : natOfBits f off (c + 1 + 1) =
        (if f off then 1 else 0) + 2 * natOfBits f (off + 1) (c + 1) := rfl
    have h2 : natOfBits f off (c + 1) =
        (if f off then 1 else 0) + 2 * natOfBits f (off + 1) c := rfl
    rw [h1, ih, h2]
    have : off + 1 + c = off + (c + 1) := by omega
    rw [this, pow_succ]
    ring

theorem testBit_natOfBits (f : Nat → Bool) :
    ∀ c off m, (natOfBits f off c).testBit m = if m < c then f (off + m) else false := by
  intro c
  induction c with
  | zero => intro off m; simp [natOfBits]
  | succ c ih =>
    intro off m
    have hval : natOfBits f off (c + 1) =
        (if f off then 1 else 0) + 2 * natOfBits f (off + 1) c := rfl
    match m with
    | 0 =>
      rw [hval, Nat.testBit_zero]
      by_cases hb : f off <;> simp [hb, Nat.add_mul_mod_self_left]
    | k + 1 =>
      rw [hval, Nat.testBit_add_one]
      have hdiv : ((if f off then 1 else 0) + 2 * natOfBits f (off + 1) c) / 2 =
          natOfBits f (off + 1) c := by
        by_cases hb : f off <;> simp [hb] <;> omega
      rw [hdiv, ih]
      have : off + 1 + k = off + (k + 1) := by omega
      simp [this, Nat.succ_lt_succ_iff]

theorem natOfBits_testBit_self (v : Nat) :
    ∀ c, natOfBits (Nat.testBit v) 0 c = v % 2 ^ c := by
  intro c
  apply Nat.eq_of_testBit_eq
  intro i
  rw [testBit_natOfBits, Nat.testBit_mod_two_pow]
  by_cases h : i < c <;> simp [h]

theorem natOfBits_shift :
    ∀ (c : Nat) (f : Nat → Bool) (off : Nat),
      natOfBits f off c = natOfBits (fun k => f (off + k)) 0 c := by
  intro c
  induction c with
  | zero => intro f off; rfl
  | succ c ih =>
    intro f off
    have h1 : natOfBits f off (c + 1) = (if f off then 1 else 0) + 2 * natOfBits f (off + 1) c := rfl
    have h2 : natOfBits (fun k => f (off + k)) 0 (c + 1) =
        (if f off then 1 else 0) + 2 * natOfBits (fun k => f (off + k)) 1 c := by
      simp [natOfBits]
    rw [h1, h2, ih f (off + 1), ih (fun k => f (off + k)) 1]
    congr 1
    congr 1
    apply natOfBits_congr
    intro m _
    simp [Nat.add_assoc, Nat.add_comm 1 m]

/-! ## BitArray (helpers.hpp, class BitArray<N>)

Internal data is an array of (N + 7) / 8 bytes; each byte is modelled as a
Nat (all operations keep well-formed bytes below 256; reads of missing
bytes default to 0, writes past the byte list are no-ops, which is only
ever exercised by the proofs, never by the translated member functions on
well-formed data).
-/

structure BitArray (N : Nat) where
  mData : List Nat
deriving DecidableEq, Repr

namespace BitArray

variable {N : Nat}

/-- helpers.hpp line 31: mask = 1 << (idx % 8); the false branch stores
mData[idx / 8] & ~mask, and on uint8 the complement ~mask is 255 ^ mask. -/
def setBit (ba : BitArray N) (value : Bool) (idx : Nat) : BitArray N :=
  let mask : Nat := 1 <<< (idx % 8)
  let b := ba.mData.getD (idx / 8) 0
  ⟨ba.mData.set (idx / 8) (if value then b ||| mask else b &&& (255 ^^^ mask))⟩

/-- helpers.hpp line 40: (mData[idx / 8] >> (idx % 8)) & 0x01, converted to
bool; Nat.testBit is literally that expression. -/
def getBit (ba : BitArray N) (idx : Nat) : Bool :=
  Nat.testBit (ba.mData.getD (idx / 8) 0) (idx % 8)

/-- The constructor plus fill(value): every byte becomes 0xff or 0x00. -/
def ofFill (N : Nat) (value : Bool) : BitArray N :=
  ⟨List.replicate ((N + 7) / 8) (if value then 255 else 0)⟩

/-- Loop of get<T>: while (count > 0) { --count; res = res << 1; res |= bit }. -/
def getAux (ba : BitArray N) (offset : Nat) : Nat → Nat → Nat
  | 0, res => res
  | c + 1, res => ba.getAux offset c (2 * res + (if ba.getBit (offset + c) then 1 else 0))

/-- helpers.hpp get<T>(offset, count): w stands for sizeof(T) * 8. -/
def get (ba : BitArray N) (w offset count : Nat) : Nat :=
  if N ≤ offset then 0
  else ba.getAux offset (min (min count w) (N - offset)) 0

/-- Loop of set<T>: setBit(input & 1, offset); input >>= 1; ++offset,
running end - offset times. -/
def setAux : Nat → Nat → Nat → BitArray N → BitArray N
  | _, _, 0, ba => ba
  | input, offset, k + 1, ba =>
    setAux (input / 2) (offset + 1) k (ba.setBit (input &&& 1 == 1) offset)

/-- helpers.hpp set<T>(input, offset, count): w stands for sizeof(T) * 8. -/
def set (ba : BitArray N) (w input offset count : Nat) : BitArray N :=
  if N ≤ offset then ba
  else setAux input offset (min (offset + min count w) N - offset) ba

/-- helpers.hpp operator[]: throws when idx >= N, modelled as none. -/
def elemAt (ba : BitArray N) (idx : Nat) : Option Bool :=
  if N ≤ idx then none else some (ba.getBit idx)

/-- helpers.hpp operator==: compares whole bytes below N / 8 and the
remaining N % 8 bits one by one. -/
def beq (a b : BitArray N) : Bool :=
  ((List.range (N / 8)).all fun i => a.mData.getD i 0 == b.mData.getD i 0) &&
  ((List.range (N - N / 8 * 8)).all fun k =>
    a.getBit (N / 8 * 8 + k) == b.getBit (N / 8 * 8 + k))

theorem getBit_setBit (ba : BitArray N) (v : Bool) (i j : Nat) :
    (ba.setBit v i).getBit j =
      if j = i ∧ i / 8 < ba.mData.length then v else ba.getBit j := by
  unfold setBit getBit
  simp only [List.getD_eq_getElem?_getD, Nat.shiftLeft_eq, one_mul]
  by_cases hlen : i / 8 < ba.mData.length
  · by_cases hbyte : j / 8 = i / 8
    · rw [hbyte, List.getElem?_set_self hlen]
      simp only [Option.getD_some]
      cases v with
      | true =>
        rw [if_pos rfl]
        rw [Nat.testBit_or, Nat.testBit_two_pow]
        by_cases hij : j = i
        · subst hij; simp [hlen]
        · have hne : i % 8 ≠ j % 8 := by omega
          simp [hne, hij]
      | false =>
        rw [if_neg (by simp)]
        rw [Nat.testBit_and, Nat.testBit_xor,
          (show (255:Nat) = 2 ^ 8 - 1 by norm_num), Nat.testBit_two_pow_sub_one,
          Nat.testBit_two_pow]
        by_cases hij : j = i
        · have hlt : i % 8 < 8 := Nat.mod_lt _ (by norm_num)
          simp [hij, hlt, hlen]
        · have hne : i % 8 ≠ j % 8 := by omega
          have hlt : j % 8 < 8 := Nat.mod_lt _ (by norm_num)
          simp [hne, hlt, hij]
    · have hij : ¬(j = i) := fun h => hbyte (by rw [h])
      rw [List.getElem?_set_ne (fun h => hbyte h.symm)]
      simp [hij]
  · rw [List.set_eq_of_length_le (by omega)]
    simp [hlen]

theorem getBit_setAux_self :
    ∀ (k offset : Nat) (ba : BitArray N) (j : Nat),
      (setAux (natOfBits ba.getBit offset k) offset k ba).getBit j = ba.getBit j := by
  intro k
  induction k with
  | zero => intro offset ba j; rfl
  | succ k ih =>
    intro offset ba j
    have hval : natOfBits ba.getBit offset (k + 1) =
        (if ba.getBit offset then 1 else 0) + 2 * natOfBits ba.getBit (offset + 1) k := rfl
    have hbit : (natOfBits ba.getBit offset (k + 1) &&& 1 == 1) = ba.getBit offset := by
      rw [Nat.and_one_is_mod, hval]
      by_cases hb : ba.getBit offset <;> simp [hb, Nat.add_mul_mod_self_left]
    have hdiv : natOfBits ba.getBit offset (k + 1) / 2 = natOfBits ba.getBit (offset + 1) k := by
      rw [hval]
      by_cases hb : ba.getBit offset <;> simp [hb] <;> omega
    have hstep0 : setAux (natOfBits ba.getBit offset (k + 1)) offset (k + 1) ba =
        setAux (natOfBits ba.getBit offset (k + 1) / 2) (offset + 1) k
          (ba.setBit (natOfBits ba.getBit offset (k + 1) &&& 1 == 1) offset) := rfl
    rw [hstep0, hbit, hdiv]
    have hsame : ∀ m, (ba.setBit (ba.getBit offset) offset).getBit m = ba.getBit m := by
      intro m
      rw [getBit_setBit]
      by_cases h : m = offset ∧ offset / 8 < ba.mData.length
      · rw [if_pos h, h.1]
      · rw [if_neg h]
    have hcongr : natOfBits ba.getBit (offset + 1) k =
        natOfBits (ba.setBit (ba.getBit offset) offset).getBit (offset + 1) k := by
      apply natOfBits_congr
      intro m _
      exact (hsame (offset + 1 + m)).symm
    rw [hcongr, ih]
    exact hsame j

theorem getAux_eq (ba : BitArray N) (offset : Nat) :
    ∀ c res, ba.getAux offset c res = res * 2 ^ c + natOfBits ba.getBit offset c := by
  intro c
  induction c with
  | zero => intro res; simp [getAux, natOfBits]
  | succ c ih =>
    intro res
    have h1 : ba.getAux offset (c + 1) res =
        ba.getAux offset c (2 * res + (if ba.getBit (offset + c) then 1 else 0)) := rfl
    rw [h1, ih, natOfBits_succ_high]
    rw [pow_succ]
    ring

theorem get_eq_natOfBits (ba : BitArray N) (w offset count : Nat) (h : ¬ N ≤ offset) :
    ba.get w offset count = natOfBits ba.getBit offset (min (min count w) (N - offset)) := by
  unfold get
  rw [if_neg h, getAux_eq]
  simp

theorem length_mData_setBit (ba : BitArray N) (v : Bool) (i : Nat) :
    (ba.setBit v i).mData.length = ba.mData.length := by
  unfold setBit
  simp

theorem length_mData_setAux :
    ∀ (k input offset : Nat) (ba : BitArray N),
      (setAux input offset k ba).mData.length = ba.mData.length := by
  intro k
  induction k with
  | zero => intro input offset ba; rfl
  | succ k ih =>
    intro input offset ba
    have hstep : setAux input offset (k + 1) ba =
        setAux (input / 2) (offset + 1) k (ba.setBit (input &&& 1 == 1) offset) := rfl
    rw [hstep, ih, length_mData_setBit]

theorem length_mData_set (ba : BitArray N) (w v off cnt : Nat) :
    (ba.set w v off cnt).mData.length = ba.mData.length := by
  unfold set
  by_cases h : N ≤ off
  · rw [if_pos h]
  · rw [if_neg h, length_mData_setAux]

theorem getBit_setAux_eq :
    ∀ (k input offset : Nat) (ba : BitArray N) (j : Nat),
      (∀ m, m < k → (offset + m) / 8 < ba.mData.length) →
      (setAux input offset k ba).getBit j =
        if offset ≤ j ∧ j < offset + k then input.testBit (j - offset) else ba.getBit j := by
  intro k
  induction k with
  | zero =>
    intro input offset ba j _
    rw [if_neg (by omega)]
    rfl
  | succ k ih =>
    intro input offset ba j hlen
    have hstep : setAux input offset (k + 1) ba =
        setAux (input / 2) (offset + 1) k (ba.setBit (input &&& 1 == 1) offset) := rfl
    rw [hstep]
    have hlen2 : ∀ m, m < k →
        (offset + 1 + m) / 8 < (ba.setBit (input &&& 1 == 1) offset).mData.length := by
      intro m hm
      rw [length_mData_setBit]
      have h := hlen (m + 1) (by omega)
      have harith : offset + (m + 1) = offset + 1 + m := by omega
      rw [harith] at h
      exact h
    rw [ih (input / 2) (offset + 1) _ j hlen2]
    by_cases hcase : offset + 1 ≤ j ∧ j < offset + 1 + k
    · rw [if_pos hcase, if_pos (by omega)]
      have harith : j - offset = (j - (offset + 1)) + 1 := by omega
      rw [harith, Nat.testBit_add_one]
    · rw [if_neg hcase, getBit_setBit]
      by_cases hj : j = offset
      · have hin : offset / 8 < ba.mData.length := by
          have h := hlen 0 (by omega)
          simpa using h
        rw [if_pos ⟨hj, hin⟩, if_pos (by omega), hj, Nat.sub_self, Nat.testBit_zero,
          Nat.and_one_is_mod]
        cases hm : (input % 2 == 1) with
        | true =>
          simp at hm
          simp [hm]
        | false =>
          have hne : input % 2 ≠ 1 := by
            intro hc
            rw [hc] at hm
            simp at hm
          simp [hne]
      · rw [if_neg (by tauto), if_neg (by omega)]

end BitArray

/-- C5: for every bit array, every word width w = 8 * sizeof(T), every
offset and count, writing back the value read by get from the same bit
range leaves every bit of the array unchanged (including all cropped
cases and the out-of-range early returns). -/
theorem bitArray_set_get_roundtrip (N : Nat) (ba : BitArray N) (w off cnt j : Nat) :
    (ba.set w (ba.get w off cnt) off cnt).getBit j = ba.getBit j := by
  by_cases h : N ≤ off
  · unfold BitArray.set
    rw [if_pos h]
  · rw [BitArray.get_eq_natOfBits ba w off cnt h]
    unfold BitArray.set
    rw [if_neg h]
    have hk : min (off + min cnt w) N - off = min (min cnt w) (N - off) := by omega
    rw [hk]
    exact BitArray.getBit_setAux_self _ _ _ _

/-- C10: word access of a bit array is total at out-of-range offsets
(get returns 0 and set leaves the array untouched), whereas indexing
via operator[] fails there. -/
theorem bitArray_out_of_range_total (N : Nat) (ba : BitArray N) (w off cnt v idx : Nat)
    (h1 : N ≤ off) (h2 : N ≤ idx) :
    ba.get w off cnt = 0 ∧ ba.set w v off cnt = ba ∧ ba.elemAt idx = none := by
  unfold BitArray.get BitArray.set BitArray.elemAt
  rw [if_pos h1, if_pos h1, if_pos h2]
  exact ⟨rfl, rfl, rfl⟩

/-- Witness for C10 at N = 4, offset 5, index 6. -/
theorem bitArray_out_of_range_total_witness :
    4 ≤ 5 ∧ 4 ≤ 6 ∧
      (BitArray.get (N := 4) ⟨[9]⟩ 8 5 3 = 0 ∧
       BitArray.set (N := 4) ⟨[9]⟩ 8 7 5 3 = ⟨[9]⟩ ∧
       BitArray.elemAt (N := 4) ⟨[9]⟩ 6 = none) :=
  ⟨by decide, by decide,
    bitArray_out_of_range_total 4 ⟨[9]⟩ 8 5 3 7 6 (by decide) (by decide)⟩

/-! ## ShiftRegister (helpers.hpp, class ShiftRegister)

The deque of bits becomes a list whose head is bit 0 (the bit pushed in
last).
-/

/-- ShiftRegister::push: push_front the new bit, pop_back the oldest one.
The carried-out bit returned by the C++ method is unused by the display. -/
def sregPush (reg : List Bool) (bit : Bool) : List Bool :=
  (bit :: reg).dropLast

/-- Loop of ShiftRegister::get<T>: res = res >> 1; res |= reg[i] ? mask : 0,
where mask = 1 << (w - 1). -/
def sregGetAux (reg : List Bool) (w : Nat) : Nat → Nat → Nat → Nat
  | _, 0, res => res
  | i, fuel + 1, res =>
    sregGetAux reg w (i + 1) fuel
      ((res >>> 1) ||| (if reg.getD i false then 2 ^ (w - 1) else 0))

/-- ShiftRegister::get<T>(idx): w stands for sizeof(T) * 8; the loop runs
from idx * w to min (idx * w + w) size. -/
def sregGet (reg : List Bool) (w idx : Nat) : Nat :=
  sregGetAux reg w (idx * w) (min (idx * w + w) reg.length - idx * w) 0

theorem sregGetAux_eq (reg : List Bool) (v : Nat) :
    ∀ fuel : Nat, fuel ≤ v + 1 → ∀ i res : Nat, res < 2 ^ (v + 1) →
      sregGetAux reg (v + 1) i fuel res =
        res / 2 ^ fuel + 2 ^ (v + 1 - fuel) * natOfBits (fun m => reg.getD m false) i fuel := by
  intro fuel
  induction fuel with
  | zero =>
    intro _ i res _
    simp [sregGetAux, natOfBits]
  | succ f ih =>
    intro hfw i res hres
    have hstep : sregGetAux reg (v + 1) i (f + 1) res =
        sregGetAux reg (v + 1) (i + 1) f
          ((res >>> 1) ||| (if reg.getD i false then 2 ^ v else 0)) := rfl
    have hpow : (2:Nat) ^ (v + 1) = 2 * 2 ^ v := by rw [pow_succ]; ring
    have hdiv2 : res / 2 < 2 ^ v := by omega
    have hlor : (res >>> 1) ||| (if reg.getD i false then 2 ^ v else 0) =
        res / 2 + (if reg.getD i false then 2 ^ v else 0) := by
      rw [Nat.shiftRight_eq_div_pow, pow_one]
      by_cases hb : reg.getD i false
      · rw [if_pos hb, Nat.lor_comm]
        have h2 := Nat.mul_add_lt_is_or hdiv2 1
        simp only [mul_one] at h2
        rw [← h2]
        omega
      · rw [if_neg hb]
        simp
    have hbound : res / 2 + (if reg.getD i false then 2 ^ v else 0) < 2 ^ (v + 1) := by
      by_cases hb : reg.getD i false
      · rw [if_pos hb]
        omega
      · rw [if_neg hb]
        omega
    rw [hstep, hlor, ih (by omega) (i + 1) _ hbound]
    have hf : f ≤ v := by omega
    have e1 : v + 1 - f = (v - f) + 1 := by omega
    have e2 : v + 1 - (f + 1) = v - f := by omega
    have hnat : natOfBits (fun m => reg.getD m false) i (f + 1) =
        (if reg.getD i false then 1 else 0) +
          2 * natOfBits (fun m => reg.getD m false) (i + 1) f := rfl
    rw [e1, e2, hnat]
    have e5 : res / 2 / 2 ^ f = res / 2 ^ (f + 1) := by
      rw [Nat.div_div_eq_div_mul]
      congr 1
      rw [pow_succ]
      ring
    by_cases hb : reg.getD i false
    · rw [if_pos hb, if_pos hb]
      have e3 : (2:Nat) ^ v = 2 ^ (v - f) * 2 ^ f := by
        rw [← pow_add]
        congr 1
        omega
      have e4 : (res / 2 + 2 ^ v) / 2 ^ f = res / 2 / 2 ^ f + 2 ^ (v - f) := by
        rw [e3, Nat.add_mul_div_right _ _ (Nat.two_pow_pos f)]
      rw [e4, e5, pow_succ 2 (v - f)]
      ring
    · rw [if_neg hb, if_neg hb]
      rw [Nat.add_zero, e5]
      ring

theorem sregGet_full (reg : List Bool) (v idx : Nat)
    (h : idx * (v + 1) + (v + 1) ≤ reg.length) :
    sregGet reg (v + 1) idx =
      natOfBits (fun m => reg.getD m false) (idx * (v + 1)) (v + 1) := by
  unfold sregGet
  have hmin : min (idx * (v + 1) + (v + 1)) reg.length - idx * (v + 1) = v + 1 := by omega
  rw [hmin, sregGetAux_eq reg v (v + 1) (le_refl _) _ 0 (Nat.two_pow_pos (v + 1))]
  simp

theorem sregGet_lt (reg : List Bool) (v idx : Nat)
    (h : idx * (v + 1) + (v + 1) ≤ reg.length) :
    sregGet reg (v + 1) idx < 2 ^ (v + 1) := by
  rw [sregGet_full reg v idx h]
  exact natOfBits_lt _ _ _

theorem sregGet_testBit (reg : List Bool) (v idx m : Nat)
    (h : idx * (v + 1) + (v + 1) ≤ reg.length) (hm : m < v + 1) :
    (sregGet reg (v + 1) idx).testBit m = reg.getD (idx * (v + 1) + m) false := by
  rw [sregGet_full reg v idx h, testBit_natOfBits, if_pos hm]

/-- bitRead(v, b) is nonzero (the C++ truth test) exactly when bit b of v
is set. -/
theorem bitRead_ne_zero_iff (v b : Nat) : bitRead v b ≠ 0 ↔ v.testBit b := by
  unfold bitRead
  rw [Nat.and_one_is_mod]
  simp [Nat.testBit_to_div_mod, Nat.shiftRight_eq_div_pow]

/-! ## Serial 7-segment display (led_display.hpp, SerialSegLedDisplay<DIGITS>) -/

/-- ArduinoPinState (emulator.hpp): pin number and current value (an int,
-1 when undefined). -/
structure ArduinoPinState where
  pin : Nat
  value : Int
deriving DecidableEq, Repr

structure SerialSegLedDisplay (DIGITS : Nat) where
  mState : BitArray (DIGITS * 8)
  mShiftRegister : List Bool
  mDataInputPin : Nat
  mClockInputPin : Nat
  mLatchPin : Nat
  mDataInput : Bool
  mClockInput : Bool
  mLatch : Bool
deriving DecidableEq, Repr

/-- Digit loop of SerialSegLedDisplay::updateState: start from an
all-ones state and copy the glyph byte into every selected digit. -/
def segNewState (DIGITS activeDigits glyph : Nat) : BitArray (DIGITS * 8) :=
  (List.range DIGITS).foldl
    (fun st d => if bitRead activeDigits d ≠ 0 then st.set 8 glyph (d * 8) 8 else st)
    (BitArray.ofFill (DIGITS * 8) true)

/-- SerialSegLedDisplay::updateState: decode the shift register; when the
decoded state differs from the stored one, store it and emit it on the
sprout (emissions are returned as a list; an unattached sprout merely
drops them). -/
def segUpdateState (DIGITS : Nat) (disp : SerialSegLedDisplay DIGITS) (time : Nat) :
    SerialSegLedDisplay DIGITS × List (Nat × BitArray (DIGITS * 8)) :=
  let activeDigits := sregGet disp.mShiftRegister 8 0
  let glyph := sregGet disp.mShiftRegister 8 1
  let newState := segNewState DIGITS activeDigits glyph
  if BitArray.beq newState disp.mState = false then
    ({ disp with mState := newState }, [(time, newState)])
  else (disp, [])

/-- SerialSegLedDisplay::doAddEvent.  The pass-through of the incoming
event to the next consumer and the advanceTime notification on the sprout
do not change the display state and are not modelled; the returned list
holds the display-state events emitted on the sprout. -/
def segDoAddEvent (DIGITS : Nat) (disp : SerialSegLedDisplay DIGITS) (time : Nat)
    (state : ArduinoPinState) :
    Except String (SerialSegLedDisplay DIGITS × List (Nat × BitArray (DIGITS * 8))) :=
  let pinValue := state.value == HIGH
  if state.pin = disp.mClockInputPin then
    let d2 :=
      if disp.mClockInput && !pinValue then
        { disp with mShiftRegister := sregPush disp.mShiftRegister disp.mDataInput }
      else disp
    .ok ({ d2 with mClockInput := pinValue }, [])
  else if state.pin = disp.mDataInputPin then
    .ok ({ disp with mDataInput := pinValue }, [])
  else if state.pin = disp.mLatchPin then
    if !disp.mLatch && pinValue then
      let r := segUpdateState DIGITS disp time
      .ok ({ r.1 with mLatch := pinValue }, r.2)
    else
      .ok ({ disp with mLatch := pinValue }, [])
  else
    .error "Unknown pin number"

/-- SerialSegLedDisplay::getState. -/
def segGetState (DIGITS : Nat) (disp : SerialSegLedDisplay DIGITS) : BitArray (DIGITS * 8) :=
  disp.mState

theorem getBit_ofFill_true (N j : Nat) (hj : j < N) :
    (BitArray.ofFill N true).getBit j = true := by
  unfold BitArray.ofFill BitArray.getBit
  have hlt : j / 8 < (N + 7) / 8 := by omega
  rw [List.getD_eq_getElem?_getD, List.getElem?_replicate, if_pos hlt]
  show (255:Nat).testBit (j % 8) = true
  rw [(show (255:Nat) = 2 ^ 8 - 1 by norm_num), Nat.testBit_two_pow_sub_one]
  simp [Nat.mod_lt]

theorem getBit_set_byte {N : Nat} (ba : BitArray N) (v d j : Nat)
    (hd8 : d * 8 + 8 ≤ N) (hlen : ba.mData.length = (N + 7) / 8) :
    (ba.set 8 v (d * 8) 8).getBit j =
      if d * 8 ≤ j ∧ j < d * 8 + 8 then v.testBit (j - d * 8) else ba.getBit j := by
  unfold BitArray.set
  rw [if_neg (by omega)]
  have hk : min (d * 8 + min 8 8) N - d * 8 = 8 := by omega
  rw [hk, BitArray.getBit_setAux_eq 8 v (d * 8) ba j]
  intro m hm
  rw [hlen]
  omega

theorem segFold_getBit (DIGITS activeDigits glyph : Nat) :
    ∀ (ds : List Nat) (st : BitArray (DIGITS * 8)) (i m : Nat),
      st.mData.length = (DIGITS * 8 + 7) / 8 → (∀ d ∈ ds, d < DIGITS) →
      i < DIGITS → m < 8 →
      ((ds.foldl
          (fun st d => if bitRead activeDigits d ≠ 0 then st.set 8 glyph (d * 8) 8 else st)
          st).getBit (i * 8 + m)) =
        if i ∈ ds ∧ bitRead activeDigits i ≠ 0 then glyph.testBit m
        else st.getBit (i * 8 + m) := by
  intro ds
  induction ds with
  | nil =>
    intro st i m _ _ _ _
    simp
  | cons d ds ih =>
    intro st i m hlen hds hi hm
    rw [List.foldl_cons]
    have hi8 : i * 8 + 8 ≤ DIGITS * 8 := by omega
    have hlen2 :
        (if bitRead activeDigits d ≠ 0 then st.set 8 glyph (d * 8) 8 else st).mData.length =
          (DIGITS * 8 + 7) / 8 := by
      by_cases hb : bitRead activeDigits d ≠ 0
      · rw [if_pos hb, BitArray.length_mData_set, hlen]
      · rw [if_neg hb, hlen]
    rw [ih _ i m hlen2 (fun x hx => hds x (by simp [hx])) hi hm]
    by_cases hmem : i ∈ ds ∧ bitRead activeDigits i ≠ 0
    · rw [if_pos hmem, if_pos ⟨by simp [hmem.1], hmem.2⟩]
    · rw [if_neg hmem]
      by_cases hd : d = i
      · subst hd
        by_cases hb : bitRead activeDigits d ≠ 0
        · rw [if_pos hb, getBit_set_byte st glyph d _ hi8 hlen, if_pos (by omega),
            if_pos ⟨by simp, hb⟩]
          congr 1
          omega
        · rw [if_neg hb, if_neg (by
            intro hc
            exact hb hc.2)]
      · have huntouched :
            (if bitRead activeDigits d ≠ 0 then st.set 8 glyph (d * 8) 8 else st).getBit
              (i * 8 + m) = st.getBit (i * 8 + m) := by
          by_cases hb : bitRead activeDigits d ≠ 0
          · rw [if_pos hb,
              getBit_set_byte st glyph d _ (by have := hds d (by simp); omega) hlen,
              if_neg (by omega)]
          · rw [if_neg hb]
        rw [huntouched, if_neg (by
          intro hc
          rcases List.mem_cons.mp hc.1 with h | h
          · exact hd h.symm
          · exact hmem ⟨h, hc.2⟩)]

theorem segNewState_getBit (DIGITS activeDigits glyph : Nat) (i m : Nat)
    (hi : i < DIGITS) (hm : m < 8) :
    (segNewState DIGITS activeDigits glyph).getBit (i * 8 + m) =
      if bitRead activeDigits i ≠ 0 then glyph.testBit m else true := by
  unfold segNewState
  rw [segFold_getBit DIGITS activeDigits glyph (List.range DIGITS)
    (BitArray.ofFill (DIGITS * 8) true) i m (by simp [BitArray.ofFill])
    (fun d hd => List.mem_range.mp hd) hi hm]
  by_cases hb : bitRead activeDigits i ≠ 0
  · rw [if_pos ⟨List.mem_range.mpr hi, hb⟩, if_pos hb]
  · rw [if_neg (by
      intro hc
      exact hb hc.2), if_neg hb]
    exact getBit_ofFill_true _ _ (by omega)

theorem segNewState_byte (DIGITS activeDigits glyph : Nat) (i : Nat)
    (hi : i < DIGITS) (hglyph : glyph < 256) :
    (segNewState DIGITS activeDigits glyph).get 8 (i * 8) 8 =
      if bitRead activeDigits i ≠ 0 then glyph else 255 := by
  have hoff : ¬ (DIGITS * 8 ≤ i * 8) := by omega
  rw [BitArray.get_eq_natOfBits _ _ _ _ hoff]
  have hc : min (min 8 8) (DIGITS * 8 - i * 8) = 8 := by omega
  rw [hc, natOfBits_shift]
  by_cases hb : bitRead activeDigits i ≠ 0
  · rw [if_pos hb]
    have hcongr : natOfBits (fun k => (segNewState DIGITS activeDigits glyph).getBit (i * 8 + k)) 0 8 =
        natOfBits (Nat.testBit glyph) 0 8 := by
      apply natOfBits_congr
      intro m hm
      simp only [Nat.zero_add]
      rw [segNewState_getBit DIGITS activeDigits glyph i m hi hm, if_pos hb]
    rw [hcongr, natOfBits_testBit_self]
    have h256 : (2:Nat) ^ 8 = 256 := by norm_num
    rw [h256]
    omega
  · rw [if_neg hb]
    have hcongr : natOfBits (fun k => (segNewState DIGITS activeDigits glyph).getBit (i * 8 + k)) 0 8 =
        natOfBits (Nat.testBit 255) 0 8 := by
      apply natOfBits_congr
      intro m hm
      simp only [Nat.zero_add]
      rw [segNewState_getBit DIGITS activeDigits glyph i m hi hm, if_neg hb,
        (show (255:Nat) = 2 ^ 8 - 1 by norm_num), Nat.testBit_two_pow_sub_one]
      simp [hm]
    rw [hcongr, natOfBits_testBit_self]
    norm_num

theorem get_byte_of_beq {N : Nat} (a b : BitArray N) (i : Nat)
    (h : BitArray.beq a b = true) (hi : i < N / 8) (hN : i * 8 + 8 ≤ N) :
    a.get 8 (i * 8) 8 = b.get 8 (i * 8) 8 := by
  have hbyte : a.mData.getD i 0 = b.mData.getD i 0 := by
    unfold BitArray.beq at h
    rw [Bool.and_eq_true] at h
    have h1 := List.all_eq_true.mp h.1 i (List.mem_range.mpr hi)
    simpa using h1
  have hoff : ¬ (N ≤ i * 8) := by omega
  rw [BitArray.get_eq_natOfBits _ _ _ _ hoff, BitArray.get_eq_natOfBits _ _ _ _ hoff]
  apply natOfBits_congr
  intro m hm
  have hm8 : m < 8 := by omega
  unfold BitArray.getBit
  have hdiv : (i * 8 + m) / 8 = i := by omega
  rw [hdiv, hbyte]

/-- C1: for the 4-digit serial 7-segment display, an event that takes the
latch pin from LOW to HIGH makes getState() equal to the decode of the
16-bit shift register: byte i of the state is the glyph byte (register
bits 8..15) when bit i of the digit-select byte (register bits 0..7) is
set, and 0xFF (blank) otherwise. -/
theorem segDisplay_latch_rising_decodes (disp : SerialSegLedDisplay 4) (t : Nat)
    (ev : ArduinoPinState)
    (hpin : ev.pin = disp.mLatchPin)
    (hnc : disp.mLatchPin ≠ disp.mClockInputPin)
    (hnd : disp.mLatchPin ≠ disp.mDataInputPin)
    (hlatch : disp.mLatch = false)
    (hval : ev.value = HIGH)
    (hreg : disp.mShiftRegister.length = 16)
    (i : Nat) (hi : i < 4) :
    ∃ d2 msgs, segDoAddEvent 4 disp t ev = Except.ok (d2, msgs) ∧
      (segGetState 4 d2).get 8 (i * 8) 8 =
        (if (sregGet disp.mShiftRegister 8 0).testBit i
         then sregGet disp.mShiftRegister 8 1 else 255) := by
  have h0 : (0:Nat) * 8 + 8 ≤ disp.mShiftRegister.length := by omega
  have h1 : (1:Nat) * 8 + 8 ≤ disp.mShiftRegister.length := by omega
  have hglyph : sregGet disp.mShiftRegister 8 1 < 256 :=
    sregGet_lt disp.mShiftRegister 7 1 h1
  have hsel : (bitRead (sregGet disp.mShiftRegister 8 0) i ≠ 0) ↔
      (sregGet disp.mShiftRegister 8 0).testBit i :=
    bitRead_ne_zero_iff _ i
  unfold segDoAddEvent
  rw [hpin, if_neg hnc, if_neg hnd, if_pos rfl, hlatch, hval]
  simp only [Bool.not_false, Bool.true_and]
  have hhigh : (HIGH == HIGH) = true := by decide
  rw [hhigh]
  simp only [if_pos rfl]
  set newState := segNewState 4 (sregGet disp.mShiftRegister 8 0)
    (sregGet disp.mShiftRegister 8 1) with hnew
  have hbyte : newState.get 8 (i * 8) 8 =
      (if (sregGet disp.mShiftRegister 8 0).testBit i
       then sregGet disp.mShiftRegister 8 1 else 255) := by
    rw [hnew, segNewState_byte 4 _ _ i hi hglyph]
    by_cases hb : bitRead (sregGet disp.mShiftRegister 8 0) i ≠ 0
    · rw [if_pos hb, if_pos (hsel.mp hb)]
    · rw [if_neg hb, if_neg (fun hc => hb (hsel.mpr hc))]
  unfold segUpdateState
  by_cases hbeq : BitArray.beq newState disp.mState = false
  · rw [if_pos hbeq]
    exact ⟨_, _, rfl, hbyte⟩
  · rw [if_neg hbeq]
    refine ⟨_, _, rfl, ?_⟩
    have heq : BitArray.beq newState disp.mState = true := by
      cases hb2 : BitArray.beq newState disp.mState
      · exact absurd hb2 hbeq
      · rfl
    have := get_byte_of_beq newState disp.mState i heq (by omega) (by omega)
    rw [segGetState]
    rw [← this, hbyte]

/-- A concrete 16-bit register: digit-select byte 0b00000101 (digits 0 and
2 selected), glyph byte 0xF9 (the glyph of digit 1). -/
def c1WitnessReg : List Bool :=
  [true, false, true, false, false, false, false, false,
   true, false, false, true, true, true, true, true]

/-- A concrete display wired to the funshield pins (data 8, clock 7,
latch 4) with the latch currently LOW. -/
def c1WitnessDisp : SerialSegLedDisplay 4 :=
  ⟨BitArray.ofFill (4 * 8) false, c1WitnessReg, 8, 7, 4, false, false, false⟩

/-- Witness for C1: a latch rising edge on the concrete display. -/
theorem segDisplay_latch_rising_decodes_witness :
    c1WitnessDisp.mLatch = false ∧ c1WitnessDisp.mShiftRegister.length = 16 ∧ (2:Nat) < 4 ∧
      (∃ d2 msgs, segDoAddEvent 4 c1WitnessDisp 1000 ⟨4, 1⟩ = Except.ok (d2, msgs) ∧
        (segGetState 4 d2).get 8 (2 * 8) 8 =
          (if (sregGet c1WitnessDisp.mShiftRegister 8 0).testBit 2
           then sregGet c1WitnessDisp.mShiftRegister 8 1 else 255)) :=
  ⟨rfl, by decide, by decide,
    segDisplay_latch_rising_decodes c1WitnessDisp 1000 ⟨4, 1⟩ rfl (by decide) (by decide)
      rfl rfl (by decide) 2 (by decide)⟩

/-! ## ArduinoPin::setMode (emulator.hpp) -/

def UNDEFINED : Int := -1

/-- ArduinoPin (emulator.hpp): pin number, current value, wiring, mode. -/
structure ArduinoPin where
  pin : Nat
  value : Int
  mWiring : Int
  mMode : Int
deriving DecidableEq, Repr

/-- ArduinoPin::setMode, translated verbatim.  Note that the third guard
(emulator.hpp line 134) tests mMode (the current mode), not mode (the
requested one). -/
def ArduinoPin.setMode (p : ArduinoPin) (mode : Int) : Except String ArduinoPin :=
  if mode ≠ INPUT ∧ mode ≠ OUTPUT then
    .error "Trying to set pin into invalid mode."
  else if p.mMode ≠ UNDEFINED ∧ p.mMode ≠ mode then
    .error "Unable to change I/O mode of a pin at runtime."
  else if p.mWiring = INPUT ∧ p.mMode = OUTPUT then
    .error "Attempting to switch input pin into output mode. That might result in shot circuit."
  else
    let p2 : ArduinoPin := { p with mMode := mode }
    if p2.mMode = INPUT ∧ p2.value = UNDEFINED then .ok { p2 with value := HIGH }
    else .ok p2

/-- C3 (evidence of the code bug): an input-wired pin whose mode is still
undefined is switched into OUTPUT mode without any emulator error,
because the guard in ArduinoPin::setMode tests the current mode (mMode)
instead of the requested one (mode); the claim and the exception text
say every such attempt must fail. -/
theorem setMode_input_wired_accepts_output :
    (ArduinoPin.mk 5 UNDEFINED INPUT UNDEFINED).setMode OUTPUT =
      Except.ok (ArduinoPin.mk 5 UNDEFINED INPUT OUTPUT) := by rfl

/-! ## Time series (time_series.hpp, TimeSeries<VALUE, TIME>)

Events are (time, value) pairs; the series invariant (enforced by
addEvent) is that times are non-decreasing.  logtime_t is uint64, whose
maximum value the compare loop uses as the exhausted-series sentinel.
-/

structure TSEvent (V : Type) where
  time : Nat
  value : V
deriving DecidableEq, Repr

/-- TimeSeriesBase::Range, an interval of indices or times [start, end). -/
structure TSRange where
  rStart : Nat
  rEnd : Nat
deriving DecidableEq, Repr

def TSRange.length (r : TSRange) : Nat := r.rEnd - r.rStart

/-- numeric_limits of logtime_t (uint64), used by compare as sentinel. -/
def MAX_TIME : Nat := 2 ^ 64 - 1

/-- The skip loop at the top of TimeSeries::compare: drop events with
time <= range.start(), remembering the last dropped value. -/
def skipBefore {V : Type} : List (TSEvent V) → V → Nat → List (TSEvent V) × V
  | [], lv, _ => ([], lv)
  | e :: rest, lv, rs => if e.time ≤ rs then skipBefore rest e.value rs else (e :: rest, lv)

/-- Main loop of TimeSeries::compare plus the trailing adjustment.  fuel
is the number of not-yet-consumed events (each iteration consumes exactly
one event, so the loop condition can only hold when fuel is positive);
with fuel 0 both lists are empty and only the trailing adjustment runs. -/
def compareAux {V : Type} [DecidableEq V] (endT : Nat) :
    Nat → List (TSEvent V) → List (TSEvent V) → V → V → Nat → Nat → Nat
  | 0, _, _, lv0, lv1, lastTime, res =>
    if lastTime < endT ∧ lv0 ≠ lv1 then res + (endT - lastTime) else res
  | fuel + 1, l0, l1, lv0, lv1, lastTime, res =>
    if lastTime < endT ∧ (l0 ≠ [] ∨ l1 ≠ []) then
      let nextTs0 := match l0 with | [] => MAX_TIME | e :: _ => e.time
      let nextTs1 := match l1 with | [] => MAX_TIME | e :: _ => e.time
      if nextTs0 ≤ nextTs1 then
        match l0 with
        | [] =>
          -- only reachable when an event time reaches MAX_TIME; there the
          -- C++ loop reads this->at(idx) past the end of the vector
          res
        | e :: rest =>
          compareAux endT fuel rest l1 e.value lv1 e.time
            (if lv0 ≠ lv1 then res + (min nextTs0 endT - lastTime) else res)
      else
        match l1 with
        | [] => res
        | e :: rest =>
          compareAux endT fuel l0 rest lv0 e.value e.time
            (if lv0 ≠ lv1 then res + (min nextTs1 endT - lastTime) else res)
    else
      if lastTime < endT ∧ lv0 ≠ lv1 then res + (endT - lastTime) else res

/-- TimeSeries::compare(timeSeries, range, initialValue). -/
def compare {V : Type} [DecidableEq V] (A B : List (TSEvent V)) (r : TSRange)
    (initialValue : V) : Nat :=
  let s0 := skipBefore A initialValue r.rStart
  let s1 := skipBefore B initialValue r.rStart
  compareAux r.rEnd (s0.1.length + s1.1.length) s0.1 s1.1 s0.2 s1.2 r.rStart 0

/-- Specification-side helper: the current value of a series at time t
(last event with time <= t, the fallback before any event), assuming the
series is sorted. -/
def valAt {V : Type} (lv : V) : List (TSEvent V) → Nat → V
  | [], _ => lv
  | e :: rest, t => if e.time ≤ t then valAt e.value rest t else lv

/-- Specification-side helper: the number of microsecond instants in
[t, endT) at which the two series hold different current values. -/
def divCount {V : Type} [DecidableEq V] (l0 l1 : List (TSEvent V)) (lv0 lv1 : V)
    (t endT : Nat) : Nat :=
  ((Finset.Ico t endT).filter (fun τ => valAt lv0 l0 τ ≠ valAt lv1 l1 τ)).card

/-- The TimeSeries storage invariant: events sorted by time, ascending. -/
def timesSorted {V : Type} (l : List (TSEvent V)) : Prop :=
  List.Pairwise (fun a b => a.time ≤ b.time) l

def lbTime {V : Type} (t : Nat) (l : List (TSEvent V)) : Prop :=
  ∀ e ∈ l, t ≤ e.time

/-- All event times fit into uint64 strictly below the sentinel. -/
def timesBounded {V : Type} (l : List (TSEvent V)) : Prop :=
  ∀ e ∈ l, e.time < MAX_TIME

instance {V : Type} : DecidableRel (fun (a b : TSEvent V) => a.time ≤ b.time) :=
  fun a b => Nat.decLe a.time b.time

instance {V : Type} (l : List (TSEvent V)) : Decidable (timesSorted l) :=
  inferInstanceAs (Decidable (List.Pairwise (fun (a b : TSEvent V) => a.time ≤ b.time) l))

instance {V : Type} (l : List (TSEvent V)) : Decidable (timesBounded l) :=
  List.decidableBAll _ l

theorem valAt_of_lb {V : Type} (lv : V) (l : List (TSEvent V)) (τ t0 : Nat)
    (h : lbTime t0 l) (hτ : τ < t0) : valAt lv l τ = lv := by
  cases l with
  | nil => rfl
  | cons e r =>
    have he := h e (by simp)
    unfold valAt
    rw [if_neg (by omega)]

theorem divCount_comm {V : Type} [DecidableEq V] (l0 l1 : List (TSEvent V)) (lv0 lv1 : V)
    (t endT : Nat) :
    divCount l0 l1 lv0 lv1 t endT = divCount l1 l0 lv1 lv0 t endT := by
  unfold divCount
  congr 1
  apply Finset.filter_congr
  intro x _
  constructor
  · intro h
    exact fun hc => h hc.symm
  · intro h
    exact fun hc => h hc.symm

theorem divCount_nil_nil {V : Type} [DecidableEq V] (lv0 lv1 : V) (t endT : Nat) :
    divCount ([] : List (TSEvent V)) [] lv0 lv1 t endT =
      if t < endT ∧ lv0 ≠ lv1 then endT - t else 0 := by
  unfold divCount
  by_cases hne : lv0 = lv1
  · rw [Finset.filter_false_of_mem (fun x _ => by simp [valAt, hne])]
    rw [if_neg (fun hc => hc.2 hne)]
    simp
  · rw [Finset.filter_true_of_mem (fun x _ => by simpa [valAt] using hne)]
    rw [Nat.card_Ico]
    by_cases ht : t < endT
    · rw [if_pos ⟨ht, hne⟩]
    · rw [if_neg (fun hc => ht hc.1)]
      omega

theorem divCount_of_ge {V : Type} [DecidableEq V] (l0 l1 : List (TSEvent V)) (lv0 lv1 : V)
    (t endT : Nat) (h : endT ≤ t) : divCount l0 l1 lv0 lv1 t endT = 0 := by
  unfold divCount
  rw [Finset.Ico_eq_empty (by omega)]
  simp

theorem divCount_step_left {V : Type} [DecidableEq V] (e0 : TSEvent V)
    (r0 l1 : List (TSEvent V)) (lv0 lv1 : V) (t endT : Nat)
    (ht : t < endT) (hlb : t ≤ e0.time) (hr0 : lbTime e0.time r0)
    (hl1 : lbTime e0.time l1) :
    divCount (e0 :: r0) l1 lv0 lv1 t endT =
      (if lv0 ≠ lv1 then min e0.time endT - t else 0) +
        divCount r0 l1 e0.value lv1 e0.time endT := by
  unfold divCount
  have hsplit : Finset.Ico t endT =
      Finset.Ico t (min e0.time endT) ∪ Finset.Ico (min e0.time endT) endT :=
    (Finset.Ico_union_Ico_eq_Ico (by omega) (by omega)).symm
  rw [hsplit, Finset.filter_union,
    Finset.card_union_of_disjoint
      (Finset.disjoint_filter_filter (Finset.Ico_disjoint_Ico_consecutive t _ endT))]
  have hpart1 : ((Finset.Ico t (min e0.time endT)).filter
      (fun τ => valAt lv0 (e0 :: r0) τ ≠ valAt lv1 l1 τ)).card =
      (if lv0 ≠ lv1 then min e0.time endT - t else 0) := by
    have hvals : ∀ τ ∈ Finset.Ico t (min e0.time endT),
        (valAt lv0 (e0 :: r0) τ ≠ valAt lv1 l1 τ) = (lv0 ≠ lv1) := by
      intro τ hτ
      rw [Finset.mem_Ico] at hτ
      have hτe : τ < e0.time := by omega
      have h1 : valAt lv0 (e0 :: r0) τ = lv0 := by
        unfold valAt
        rw [if_neg (by omega)]
      have h2 : valAt lv1 l1 τ = lv1 := valAt_of_lb lv1 l1 τ e0.time hl1 hτe
      rw [h1, h2]
    by_cases hne : lv0 ≠ lv1
    · rw [Finset.filter_true_of_mem (fun τ hτ => by rw [hvals τ hτ]; exact hne)]
      rw [if_pos hne, Nat.card_Ico]
    · rw [Finset.filter_false_of_mem (fun τ hτ => by rw [hvals τ hτ]; exact hne)]
      rw [if_neg hne]
      simp
  have hpart2 : ((Finset.Ico (min e0.time endT) endT).filter
      (fun τ => valAt lv0 (e0 :: r0) τ ≠ valAt lv1 l1 τ)).card =
      ((Finset.Ico e0.time endT).filter
        (fun τ => valAt e0.value r0 τ ≠ valAt lv1 l1 τ)).card := by
    by_cases hTend : e0.time < endT
    · have hm : min e0.time endT = e0.time := by omega
      rw [hm]
      congr 1
      apply Finset.filter_congr
      intro τ hτ
      rw [Finset.mem_Ico] at hτ
      have h1 : valAt lv0 (e0 :: r0) τ = valAt e0.value r0 τ := by
        show (if e0.time ≤ τ then valAt e0.value r0 τ else lv0) = _
        rw [if_pos (by omega)]
      rw [h1]
    · have hm : min e0.time endT = endT := by omega
      rw [hm, Finset.Ico_self, Finset.Ico_eq_empty (by omega)]
      simp
  rw [hpart1, hpart2]

theorem compareAux_divCount {V : Type} [DecidableEq V] (endT : Nat) :
    ∀ (fuel : Nat) (l0 l1 : List (TSEvent V)) (lv0 lv1 : V) (t res : Nat),
      l0.length + l1.length ≤ fuel →
      timesSorted l0 → timesSorted l1 → lbTime t l0 → lbTime t l1 →
      timesBounded l0 → timesBounded l1 →
      compareAux endT fuel l0 l1 lv0 lv1 t res = res + divCount l0 l1 lv0 lv1 t endT := by
  intro fuel
  induction fuel with
  | zero =>
    intro l0 l1 lv0 lv1 t res hlen _ _ _ _ _ _
    have h0 : l0 = [] := List.length_eq_zero.mp (by omega)
    have h1 : l1 = [] := List.length_eq_zero.mp (by omega)
    subst h0
    subst h1
    show (if t < endT ∧ lv0 ≠ lv1 then res + (endT - t) else res) = _
    rw [divCount_nil_nil]
    by_cases hc : t < endT ∧ lv0 ≠ lv1
    · rw [if_pos hc, if_pos hc]
    · rw [if_neg hc, if_neg hc]
      omega
  | succ fuel ih =>
    intro l0 l1 lv0 lv1 t res hlen hs0 hs1 hlb0 hlb1 hb0 hb1
    by_cases hloop : t < endT ∧ (l0 ≠ [] ∨ l1 ≠ [])
    · obtain ⟨ht, hne⟩ := hloop
      match l0, l1 with
      | [], [] => simp at hne
      | [], e1 :: r1 =>
        have hb1h : e1.time < MAX_TIME := hb1 e1 (by simp)
        have hcmp : ¬ (MAX_TIME ≤ e1.time) := by omega
        have hstep : compareAux endT (fuel + 1) [] (e1 :: r1) lv0 lv1 t res =
            compareAux endT fuel [] r1 lv0 e1.value e1.time
              (if lv0 ≠ lv1 then res + (min e1.time endT - t) else res) := by
          show (if t < endT ∧ (([] : List (TSEvent V)) ≠ [] ∨ e1 :: r1 ≠ []) then _ else _) = _
          rw [if_pos ⟨ht, by simp⟩]
          show (if MAX_TIME ≤ e1.time then _ else _) = _
          rw [if_neg hcmp]
        rw [hstep, ih [] r1 lv0 e1.value e1.time _ (by simp at hlen ⊢; omega)
          List.Pairwise.nil (List.pairwise_cons.mp hs1).2 (fun e he => by simp at he)
          (fun e he => (List.pairwise_cons.mp hs1).1 e he)
          (fun e he => by simp at he) (fun e he => hb1 e (by simp [he]))]
        have hlb1h : t ≤ e1.time := hlb1 e1 (by simp)
        have hcount : divCount ([] : List (TSEvent V)) (e1 :: r1) lv0 lv1 t endT =
            (if lv0 ≠ lv1 then min e1.time endT - t else 0) +
              divCount ([] : List (TSEvent V)) r1 lv0 e1.value e1.time endT := by
          rw [divCount_comm, divCount_step_left e1 r1 [] lv1 lv0 t endT ht hlb1h
            (fun e he => (List.pairwise_cons.mp hs1).1 e he) (fun e he => by simp at he),
            divCount_comm]
          by_cases hv : lv0 ≠ lv1
          · rw [if_pos hv, if_pos (fun hc => hv hc.symm)]
          · rw [if_neg hv, if_neg (fun hc => hv (fun hcc => hc hcc.symm))]
        rw [hcount]
        by_cases hv : lv0 ≠ lv1
        · rw [if_pos hv, if_pos hv]
          omega
        · rw [if_neg hv, if_neg hv]
          omega
      | e0 :: r0, [] =>
        have hb0h : e0.time < MAX_TIME := hb0 e0 (by simp)
        have hstep : compareAux endT (fuel + 1) (e0 :: r0) [] lv0 lv1 t res =
            compareAux endT fuel r0 [] e0.value lv1 e0.time
              (if lv0 ≠ lv1 then res + (min e0.time endT - t) else res) := by
          show (if t < endT ∧ (e0 :: r0 ≠ [] ∨ ([] : List (TSEvent V)) ≠ []) then _ else _) = _
          rw [if_pos ⟨ht, Or.inl (by simp)⟩]
          show (if e0.time ≤ MAX_TIME then _ else _) = _
          rw [if_pos (by omega)]
        rw [hstep, ih r0 [] e0.value lv1 e0.time _ (by simp at hlen ⊢; omega)
          (List.pairwise_cons.mp hs0).2 List.Pairwise.nil
          (fun e he => (List.pairwise_cons.mp hs0).1 e he) (fun e he => by simp at he)
          (fun e he => hb0 e (by simp [he])) (fun e he => by simp at he)]
        rw [divCount_step_left e0 r0 [] lv0 lv1 t endT ht (hlb0 e0 (by simp))
          (fun e he => (List.pairwise_cons.mp hs0).1 e he) (fun e he => by simp at he)]
        by_cases hv : lv0 ≠ lv1
        · rw [if_pos hv, if_pos hv]
          omega
        · rw [if_neg hv, if_neg hv]
          omega
      | e0 :: r0, e1 :: r1 =>
        by_cases hcmp : e1.time < e0.time
        · -- the right series has the strictly sooner event: it is consumed
          have hstep : compareAux endT (fuel + 1) (e0 :: r0) (e1 :: r1) lv0 lv1 t res =
              compareAux endT fuel (e0 :: r0) r1 lv0 e1.value e1.time
                (if lv0 ≠ lv1 then res + (min e1.time endT - t) else res) := by
            show (if t < endT ∧ (e0 :: r0 ≠ [] ∨ e1 :: r1 ≠ []) then _ else _) = _
            rw [if_pos ⟨ht, by simp⟩]
            show (if e0.time ≤ e1.time then _ else _) = _
            rw [if_neg (by omega)]
          have hlb0e : lbTime e1.time (e0 :: r0) := by
            intro e he
            rcases List.mem_cons.mp he with h | h
            · subst h
              omega
            · have := (List.pairwise_cons.mp hs0).1 e h
              omega
          rw [hstep, ih (e0 :: r0) r1 lv0 e1.value e1.time _
            (by simp at hlen ⊢; omega) hs0 (List.pairwise_cons.mp hs1).2
            hlb0e (fun e he => (List.pairwise_cons.mp hs1).1 e he)
            hb0 (fun e he => hb1 e (by simp [he]))]
          have hlb1h : t ≤ e1.time := hlb1 e1 (by simp)
          have hcount : divCount (e0 :: r0) (e1 :: r1) lv0 lv1 t endT =
              (if lv0 ≠ lv1 then min e1.time endT - t else 0) +
                divCount (e0 :: r0) r1 lv0 e1.value e1.time endT := by
            rw [divCount_comm, divCount_step_left e1 r1 (e0 :: r0) lv1 lv0 t endT ht
              hlb1h (fun e he => (List.pairwise_cons.mp hs1).1 e he) hlb0e,
              divCount_comm]
            by_cases hv : lv0 ≠ lv1
            · rw [if_pos hv, if_pos (fun hc => hv hc.symm)]
            · rw [if_neg hv, if_neg (fun hc => hv (fun hcc => hc hcc.symm))]
          rw [hcount]
          by_cases hv : lv0 ≠ lv1
          · rw [if_pos hv, if_pos hv]
            omega
          · rw [if_neg hv, if_neg hv]
            omega
        · -- the left series is consumed (ties go to the left operand)
          have hle : e0.time ≤ e1.time := by omega
          have hstep : compareAux endT (fuel + 1) (e0 :: r0) (e1 :: r1) lv0 lv1 t res =
              compareAux endT fuel r0 (e1 :: r1) e0.value lv1 e0.time
                (if lv0 ≠ lv1 then res + (min e0.time endT - t) else res) := by
            show (if t < endT ∧ (e0 :: r0 ≠ [] ∨ e1 :: r1 ≠ []) then _ else _) = _
            rw [if_pos ⟨ht, by simp⟩]
            show (if e0.time ≤ e1.time then _ else _) = _
            rw [if_pos hle]
          have hlb1e : lbTime e0.time (e1 :: r1) := by
            intro e he
            rcases List.mem_cons.mp he with h | h
            · subst h
              omega
            · have := (List.pairwise_cons.mp hs1).1 e h
              omega
          rw [hstep, ih r0 (e1 :: r1) e0.value lv1 e0.time _ (by simp at hlen ⊢; omega)
            (List.pairwise_cons.mp hs0).2 hs1
            (fun e he => (List.pairwise_cons.mp hs0).1 e he) hlb1e
            (fun e he => hb0 e (by simp [he])) hb1]
          have hlb0h : t ≤ e0.time := hlb0 e0 (by simp)
          rw [divCount_step_left e0 r0 (e1 :: r1) lv0 lv1 t endT ht hlb0h
            (fun e he => (List.pairwise_cons.mp hs0).1 e he) hlb1e]
          by_cases hv : lv0 ≠ lv1
          · rw [if_pos hv, if_pos hv]
            omega
          · rw [if_neg hv, if_neg hv]
            omega
    · have hstep : compareAux endT (fuel + 1) l0 l1 lv0 lv1 t res =
          if t < endT ∧ lv0 ≠ lv1 then res + (endT - t) else res := by
        show (if t < endT ∧ (l0 ≠ [] ∨ l1 ≠ []) then _ else _) = _
        rw [if_neg hloop]
      rw [hstep]
      by_cases ht : t < endT
      · have h0 : l0 = [] := by
          rcases l0 with _ | ⟨e, r⟩
          · rfl
          · exact absurd ⟨ht, Or.inl (by simp)⟩ hloop
        have h1 : l1 = [] := by
          rcases l1 with _ | ⟨e, r⟩
          · rfl
          · exact absurd ⟨ht, Or.inr (by simp)⟩ hloop
        subst h0
        subst h1
        rw [divCount_nil_nil]
        by_cases hc : t < endT ∧ lv0 ≠ lv1
        · rw [if_pos hc, if_pos hc]
        · rw [if_neg hc, if_neg hc]
          omega
      · rw [if_neg (fun hc => ht hc.1), divCount_of_ge _ _ _ _ _ _ (by omega)]
        omega

theorem skipBefore_props {V : Type} :
    ∀ (l : List (TSEvent V)) (lv : V) (rs : Nat),
      timesSorted l → timesBounded l →
      timesSorted (skipBefore l lv rs).1 ∧ lbTime rs (skipBefore l lv rs).1 ∧
        timesBounded (skipBefore l lv rs).1 := by
  intro l
  induction l with
  | nil =>
    intro lv rs _ _
    exact ⟨List.Pairwise.nil, fun e he => by simp [skipBefore] at he,
      fun e he => by simp [skipBefore] at he⟩
  | cons e r ih =>
    intro lv rs hs hb
    by_cases hle : e.time ≤ rs
    · have hstep : skipBefore (e :: r) lv rs = skipBefore r e.value rs := by
        show (if e.time ≤ rs then _ else _) = _
        rw [if_pos hle]
      rw [hstep]
      exact ih e.value rs (List.pairwise_cons.mp hs).2 (fun x hx => hb x (by simp [hx]))
    · have hstep : skipBefore (e :: r) lv rs = (e :: r, lv) := by
        show (if e.time ≤ rs then _ else _) = _
        rw [if_neg hle]
      rw [hstep]
      refine ⟨hs, ?_, hb⟩
      intro x hx
      rcases List.mem_cons.mp hx with h | h
      · subst h
        omega
      · have := (List.pairwise_cons.mp hs).1 x h
        omega

/-- C2: compare is symmetric in its two operands, for all (sorted,
uint64-timed) series, all ranges and all initial values; both sides
equal the number of instants inside the range at which the two series
hold different current values. -/
theorem compare_symm {V : Type} [DecidableEq V] (A B : List (TSEvent V)) (r : TSRange)
    (v : V) (hsA : timesSorted A) (hsB : timesSorted B)
    (hbA : timesBounded A) (hbB : timesBounded B) :
    compare A B r v = compare B A r v := by
  obtain ⟨hs0, hlb0, hb0⟩ := skipBefore_props A v r.rStart hsA hbA
  obtain ⟨hs1, hlb1, hb1⟩ := skipBefore_props B v r.rStart hsB hbB
  show compareAux r.rEnd _ (skipBefore A v r.rStart).1 (skipBefore B v r.rStart).1
      (skipBefore A v r.rStart).2 (skipBefore B v r.rStart).2 r.rStart 0 = _
  rw [compareAux_divCount r.rEnd _ _ _ _ _ _ _ (le_refl _) hs0 hs1 hlb0 hlb1 hb0 hb1]
  show _ = compareAux r.rEnd _ (skipBefore B v r.rStart).1 (skipBefore A v r.rStart).1
      (skipBefore B v r.rStart).2 (skipBefore A v r.rStart).2 r.rStart 0
  rw [compareAux_divCount r.rEnd _ _ _ _ _ _ _ (by omega) hs1 hs0 hlb1 hlb0 hb1 hb0,
    divCount_comm]

/-- The two series of the compare scenario: both toggle 1,0,1,0 away from
initial value 0, at times 100,300,500,800 and 150,350,550,850. -/
def c7A : List (TSEvent Nat) := [⟨100, 1⟩, ⟨300, 0⟩, ⟨500, 1⟩, ⟨800, 0⟩]

def c7B : List (TSEvent Nat) := [⟨150, 1⟩, ⟨350, 0⟩, ⟨550, 1⟩, ⟨850, 0⟩]

/-- C7: on the two toggle series, compare over [0, 1000) with initial
value 0 yields exactly 200 microseconds, in both operand orders. -/
theorem compare_concrete_200 :
    compare c7A c7B ⟨0, 1000⟩ 0 = 200 ∧ compare c7B c7A ⟨0, 1000⟩ 0 = 200 := by
  constructor
  · rfl
  · rfl

/-- Witness for C2 at the concrete series of C7. -/
theorem compare_symm_witness :
    timesSorted c7A ∧ timesSorted c7B ∧ timesBounded c7A ∧ timesBounded c7B ∧
      compare c7A c7B ⟨0, 1000⟩ 0 = compare c7B c7A ⟨0, 1000⟩ 0 :=
  ⟨by decide, by decide, by decide, by decide,
    compare_symm c7A c7B ⟨0, 1000⟩ 0 (by decide) (by decide) (by decide) (by decide)⟩

/-! ## TimeSeries::findSubsequence (time_series.hpp lines 614..637) -/

inductive FindErr where
  /-- The guard at the top of findSubsequence: an empty needle throws. -/
  | emptyNeedle
  /-- The inner matching loop evaluates mEvents[start + len] without a
  bounds check; when start + len reaches the vector size this is an
  out-of-range read (undefined behavior in the C++ source). -/
  | outOfRangeRead
deriving DecidableEq, Repr

/-- Inner while loop of findSubsequence:
while (len < sequence.size() && sequence[len] == mEvents[start+len].value) ++len.
The vector access happens before the value comparison, so a missing
element is an out-of-range read even when the values would mismatch. -/
def matchLenAux {V : Type} [DecidableEq V] (hay : List (TSEvent V)) :
    List V → Nat → Nat → Option Nat
  | [], _, len => some len
  | v :: vs, pos, len =>
    match hay[pos]? with
    | none => none
    | some e => if v = e.value then matchLenAux hay vs (pos + 1) (len + 1) else some len

def matchLen {V : Type} [DecidableEq V] (hay : List (TSEvent V)) (needle : List V)
    (start : Nat) : Option Nat :=
  matchLenAux hay needle start 0

/-- Outer for loop of findSubsequence with its dynamic bound
start < size() - bestFit.length(); fuel only bounds the recursion and
hay.length + 1 iterations always suffice. -/
def findSubAux {V : Type} [DecidableEq V] (hay : List (TSEvent V)) (needle : List V) :
    Nat → Nat → TSRange → Option TSRange
  | 0, _, bestFit => some bestFit
  | fuel + 1, start, bestFit =>
    if start < hay.length - bestFit.length then
      match matchLen hay needle start with
      | none => none
      | some len =>
        findSubAux hay needle fuel (start + 1)
          (if len > bestFit.length then ⟨start, start + len⟩ else bestFit)
    else some bestFit

def findSubsequence {V : Type} [DecidableEq V] (hay : List (TSEvent V))
    (needle : List V) : Except FindErr TSRange :=
  if needle = [] then .error .emptyNeedle
  else if hay = [] then .ok ⟨0, 0⟩
  else
    match findSubAux hay needle (hay.length + 1) 0 ⟨0, 0⟩ with
    | none => .error .outOfRangeRead
    | some r => .ok r

/-- C6 (evidence of the code bug): on the one-event series [(0, 5)] with
needle [5, 7] the first needle value matches the last event, so the inner
loop evaluates mEvents[1] — one past the end of the vector, undefined
behavior in C++ — instead of returning the longest-prefix range [0, 1)
demanded by the claim.  The model maps that read to an error value. -/
theorem findSubsequence_tail_reads_out_of_range :
    findSubsequence [⟨0, (5 : Nat)⟩] [5, 7] = Except.error FindErr.outOfRangeRead := by rfl

/-! ## ForkedEventConsumer (time_series.hpp lines 203..276)

To observe what the base class delivers where, the attached next and
sprout consumers are modelled as terminal recorders that log every
notification they receive, with the causality checks of
EventConsumer::addEvent / advanceTime.
-/

inductive ConsumerMsg (V : Type) where
  | event (time : Nat) (value : V)
  | advance (time : Nat)
  | clearMsg
deriving DecidableEq, Repr

structure Recorder (V : Type) where
  received : List (ConsumerMsg V)
  mLastTime : Nat
deriving DecidableEq, Repr

def Recorder.addEvent {V : Type} (r : Recorder V) (t : Nat) (v : V) :
    Except String (Recorder V) :=
  if t < r.mLastTime then .error "Unable to add event that violates causality."
  else .ok ⟨r.received ++ [ConsumerMsg.event t v], t⟩

def Recorder.advanceTime {V : Type} (r : Recorder V) (t : Nat) :
    Except String (Recorder V) :=
  if t < r.mLastTime then .error "Unable to advance time to past, since it violates causality."
  else .ok ⟨r.received ++ [ConsumerMsg.advance t], t⟩

def Recorder.clear {V : Type} (r : Recorder V) : Recorder V :=
  ⟨r.received ++ [ConsumerMsg.clearMsg], r.mLastTime⟩

structure ForkedEventConsumer (V P : Type) where
  mNextConsumer : Option (Recorder V)
  mSproutConsumer : Option (Recorder P)
  mLastTime : Nat
deriving DecidableEq, Repr

/-- EventConsumer::addEvent on the base forked consumer: causality check,
then doAddEvent — which only forwards to next (emitting on the sprout
must be defined in derived classes) — then the mLastTime update. -/
def ForkedEventConsumer.addEvent {V P : Type} (c : ForkedEventConsumer V P) (t : Nat)
    (v : V) : Except String (ForkedEventConsumer V P) :=
  if t < c.mLastTime then .error "Unable to add event that violates causality."
  else
    match c.mNextConsumer with
    | none => .ok { c with mLastTime := t }
    | some n =>
      match n.addEvent t v with
      | .error e => .error e
      | .ok n2 => .ok { c with mNextConsumer := some n2, mLastTime := t }

/-- EventConsumer::advanceTime with ForkedEventConsumer::doAdvanceTime:
forwards to next (base class part), then to the sprout. -/
def ForkedEventConsumer.advanceTime {V P : Type} (c : ForkedEventConsumer V P) (t : Nat) :
    Except String (ForkedEventConsumer V P) :=
  if t < c.mLastTime then .error "Unable to advance time to past, since it violates causality."
  else
    let stepNext : Except String (Option (Recorder V)) :=
      match c.mNextConsumer with
      | none => .ok none
      | some n =>
        match n.advanceTime t with
        | .error e => .error e
        | .ok n2 => .ok (some n2)
    match stepNext with
    | .error e => .error e
    | .ok nxt =>
      match c.mSproutConsumer with
      | none => .ok { c with mNextConsumer := nxt, mLastTime := t }
      | some s =>
        match s.advanceTime t with
        | .error e => .error e
        | .ok s2 =>
          .ok { c with mNextConsumer := nxt, mSproutConsumer := some s2, mLastTime := t }

/-- EventConsumer::clear with ForkedEventConsumer::doClear: propagates to
next (base class part) and to the sprout; mLastTime is not reset. -/
def ForkedEventConsumer.clear {V P : Type} (c : ForkedEventConsumer V P) :
    ForkedEventConsumer V P :=
  { c with
    mNextConsumer := c.mNextConsumer.map Recorder.clear,
    mSproutConsumer := c.mSproutConsumer.map Recorder.clear }

/-- C8: on the base forked consumer with both a next and a sprout
consumer attached, advanceTime and clear deliver the notification to
both, whereas addEvent delivers the event to next only and leaves the
sprout consumer completely untouched. -/
theorem forked_consumer_routing {V P : Type} (c : ForkedEventConsumer V P)
    (n : Recorder V) (s : Recorder P) (t : Nat) (v : V)
    (hn : c.mNextConsumer = some n) (hs : c.mSproutConsumer = some s)
    (hct : c.mLastTime ≤ t) (hnt : n.mLastTime ≤ t) (hst : s.mLastTime ≤ t) :
    c.advanceTime t =
        Except.ok ⟨some ⟨n.received ++ [ConsumerMsg.advance t], t⟩,
          some ⟨s.received ++ [ConsumerMsg.advance t], t⟩, t⟩ ∧
      c.clear =
        ⟨some ⟨n.received ++ [ConsumerMsg.clearMsg], n.mLastTime⟩,
          some ⟨s.received ++ [ConsumerMsg.clearMsg], s.mLastTime⟩, c.mLastTime⟩ ∧
      c.addEvent t v =
        Except.ok ⟨some ⟨n.received ++ [ConsumerMsg.event t v], t⟩, some s, t⟩ := by
  rcases c with ⟨nc, sc, lt⟩
  simp only at hn hs hct
  subst hn
  subst hs
  have hclt : ¬ t < lt := by omega
  have hcn : ¬ t < n.mLastTime := by omega
  have hcs : ¬ t < s.mLastTime := by omega
  refine ⟨?_, ?_, ?_⟩
  · unfold ForkedEventConsumer.advanceTime Recorder.advanceTime
    rw [if_neg hclt]
    simp only
    rw [if_neg hcn, if_neg hcs]
  · unfold ForkedEventConsumer.clear Recorder.clear
    simp only [Option.map_some]
    rfl
  · unfold ForkedEventConsumer.addEvent Recorder.addEvent
    rw [if_neg hclt]
    simp only
    rw [if_neg hcn]

/-- Witness for C8 at a concrete consumer with empty recorders. -/
theorem forked_consumer_routing_witness :
    (0:Nat) ≤ 5 ∧
      ((ForkedEventConsumer.mk (some (Recorder.mk ([] : List (ConsumerMsg Bool)) 0))
          (some (Recorder.mk ([] : List (ConsumerMsg Nat)) 0)) 0).advanceTime 5 =
          Except.ok ⟨some ⟨[ConsumerMsg.advance 5], 5⟩, some ⟨[ConsumerMsg.advance 5], 5⟩, 5⟩ ∧
        (ForkedEventConsumer.mk (some (Recorder.mk ([] : List (ConsumerMsg Bool)) 0))
          (some (Recorder.mk ([] : List (ConsumerMsg Nat)) 0)) 0).clear =
          ⟨some ⟨[ConsumerMsg.clearMsg], 0⟩, some ⟨[ConsumerMsg.clearMsg], 0⟩, 0⟩ ∧
        (ForkedEventConsumer.mk (some (Recorder.mk ([] : List (ConsumerMsg Bool)) 0))
          (some (Recorder.mk ([] : List (ConsumerMsg Nat)) 0)) 0).addEvent 5 true =
          Except.ok ⟨some ⟨[ConsumerMsg.event 5 true], 5⟩, some ⟨[], 0⟩, 5⟩) :=
  ⟨by decide,
    forked_consumer_routing
      (ForkedEventConsumer.mk (some (Recorder.mk ([] : List (ConsumerMsg Bool)) 0))
        (some (Recorder.mk ([] : List (ConsumerMsg Nat)) 0)) 0)
      (Recorder.mk [] 0) (Recorder.mk [] 0) 5 true rfl rfl
      (by decide) (by decide) (by decide)⟩

/-! ## Led7SegInterpreter (led_display.hpp lines 63..257) -/

def LED_7SEG_EMPTY_SPACE : Nat := 0b11111111
def LED_7SEG_DASH : Nat := 0b10111111
def LED_7SEG_DECIMAL_DOT : Nat := 0b01111111

def LED_7SEG_DIGITS_MAP : List Nat :=
  [0b11000000, 0b11111001, 0b10100100, 0b10110000, 0b10011001,
   0b10010010, 0b10000010, 0b11111000, 0b10000000, 0b10010000]

def LED_7SEG_LETTERS_MAP : List Nat :=
  [0b10001000, 0b10000011, 0b11000110, 0b10100001, 0b10000110,
   0b10001110, 0b10000010, 0b10001001, 0b11111001, 0b11100001,
   0b10000101, 0b11000111, 0b11001000, 0b10101011, 0b10100011,
   0b10001100, 0b10011000, 0b10101111, 0b10010010, 0b10000111,
   0b11000001, 0b11100011, 0b10000001, 0b10110110, 0b10010001,
   0b10100100]

def INVALID_NUMBER : Int := -1
def INVALID_CHAR : Char := Char.ofNat 0x7f

/-- Led7SegInterpreter::getDigitRaw: byte idx of the 8*DIGITS-bit state;
masking the decimal dot ORs with ~LED_7SEG_DECIMAL_DOT, which on uint8 is
0b10000000 = 128. -/
def getDigitRaw (DIGITS : Nat) (st : BitArray (DIGITS * 8)) (idx : Nat)
    (maskDecimalDot : Bool) : Nat :=
  let res := st.get 8 (idx * 8) 8
  if maskDecimalDot then res ||| 128 else res

/-- The reverse lookup table for digits (std::map keyed by the glyph).
All glyphs in the table are distinct, so the map lookup is the first
match over the insertion list. -/
def lookupDigits : List (Nat × Char) :=
  (List.range 10).map (fun i => (LED_7SEG_DIGITS_MAP.getD i 0, Char.ofNat (48 + i)))

/-- The reverse lookup table for letters plus blank and dash. -/
def lookupOthers : List (Nat × Char) :=
  (List.range 26).map (fun i => (LED_7SEG_LETTERS_MAP.getD i 0, Char.ofNat (97 + i))) ++
  [(LED_7SEG_EMPTY_SPACE, ' '), (LED_7SEG_DASH, '-')]

def mapFind (m : List (Nat × Char)) (glyph : Nat) : Option Char :=
  (m.find? (fun p => p.1 == glyph)).map Prod.snd

/-- Led7SegInterpreter::getCharacter. -/
def getCharacter (DIGITS : Nat) (st : BitArray (DIGITS * 8)) (idx : Nat)
    (preferDigitsOverLetters : Bool) : Char :=
  let glyph := getDigitRaw DIGITS st idx true
  match mapFind lookupDigits glyph, mapFind lookupOthers glyph with
  | some d, some o => if preferDigitsOverLetters then d else o
  | some d, none => d
  | none, some o => o
  | none, none => INVALID_CHAR

/-- Led7SegInterpreter::getDigit; the returned int is ch - the code of
the character 0 when ch is a decimal digit. -/
def getDigit (DIGITS : Nat) (st : BitArray (DIGITS * 8)) (idx : Nat)
    (detectSpaceAsZero : Bool) : Int :=
  let ch := getCharacter DIGITS st idx true
  if detectSpaceAsZero ∧ ch = ' ' then 0
  else if '0' ≤ ch ∧ ch ≤ '9' then (ch.toNat : Int) - 48
  else INVALID_NUMBER

/-- First loop of getNumber: skip leading blank glyphs. -/
def skipEmptyAux (DIGITS : Nat) (st : BitArray (DIGITS * 8)) : Nat → Nat → Nat
  | idx, 0 => idx
  | idx, fuel + 1 =>
    if idx < DIGITS ∧ getDigitRaw DIGITS st idx true = LED_7SEG_EMPTY_SPACE then
      skipEmptyAux DIGITS st (idx + 1) fuel
    else idx

/-- Last loop of getNumber: fold the remaining digits into the
accumulator, failing on any non-digit glyph. -/
def accumDigitsAux (DIGITS : Nat) (st : BitArray (DIGITS * 8)) : Nat → Nat → Int → Option Int
  | _, 0, res => some res
  | idx, fuel + 1, res =>
    if idx < DIGITS then
      if getDigit DIGITS st idx false = INVALID_NUMBER then none
      else accumDigitsAux DIGITS st (idx + 1) fuel (res * 10 + getDigit DIGITS st idx false)
    else some res

/-- Led7SegInterpreter::getNumber: skip blanks, consume an optional dash
as the sign, then require all remaining glyphs to be digits. -/
def getNumber (DIGITS : Nat) (st : BitArray (DIGITS * 8)) : Int :=
  let idx0 := skipEmptyAux DIGITS st 0 DIGITS
  let negidx : Bool × Nat :=
    if idx0 < DIGITS ∧ getDigitRaw DIGITS st idx0 true = LED_7SEG_DASH then (true, idx0 + 1)
    else (false, idx0)
  if DIGITS ≤ negidx.2 then INVALID_NUMBER
  else
    match accumDigitsAux DIGITS st negidx.2 DIGITS 0 with
    | none => INVALID_NUMBER
    | some res => if negidx.1 then -res else res

/-- The display state blank, blank, dash, digit-1 (reading " -1"). -/
def negOneState : BitArray (4 * 8) := ⟨[255, 255, 0b10111111, 0b11111001]⟩

/-- C9: a correctly displayed negative one (blank, blank, dash, the
glyph of digit 1) makes getNumber return -1, which is exactly the
INVALID_NUMBER sentinel, so at the public interface it cannot be told
apart from a decode failure. -/
theorem getNumber_minus_one_is_sentinel :
    getDigitRaw 4 negOneState 0 true = LED_7SEG_EMPTY_SPACE ∧
    getDigitRaw 4 negOneState 1 true = LED_7SEG_EMPTY_SPACE ∧
    getDigitRaw 4 negOneState 2 true = LED_7SEG_DASH ∧
    getDigit 4 negOneState 3 false = 1 ∧
    getNumber 4 negOneState = -1 ∧
    getNumber 4 negOneState = INVALID_NUMBER := by decide

/-! ## LedsEventsAggregator (led_display.hpp lines 458..563)

The aggregator state machine; notifications to the next consumer become
messages in the returned list (an unattached next consumer merely drops
them).  mLastTime is the field inherited from EventConsumer.
-/

structure LedsEventsAggregator (LEDS : Nat) where
  mTimeWindow : Nat
  mNextMarker : Nat
  mLastState : BitArray LEDS
  mLastEmittedState : BitArray LEDS
  mLastTime : Nat
deriving DecidableEq, Repr

inductive AggMsg (LEDS : Nat) where
  | event (time : Nat) (state : BitArray LEDS)
  | advance (time : Nat)
deriving DecidableEq, Repr

inductive AggOp (LEDS : Nat) where
  | event (time : Nat) (state : BitArray LEDS)
  | advance (time : Nat)
deriving DecidableEq, Repr

/-- LedsEventsAggregator::updateOpenedWindow: when a window is open and
time has passed the marker, resolve everything up to the marker
(mLastTime := mNextMarker); when the buffered state differs from the last
emitted one, emit it at the marker and shift the window, otherwise just
advance the next consumer to the marker.  (The C++ assigns mLastTime
before the comparison, which does not affect the comparison.) -/
def aggUpdateOpenedWindow {LEDS : Nat} (a : LedsEventsAggregator LEDS) (time : Nat) :
    LedsEventsAggregator LEDS × List (AggMsg LEDS) :=
  if a.mLastTime < a.mNextMarker ∧ a.mNextMarker ≤ time then
    if BitArray.beq a.mLastState a.mLastEmittedState = false then
      ({ a with mLastTime := a.mNextMarker,
                mLastEmittedState := a.mLastState,
                mNextMarker := a.mNextMarker + a.mTimeWindow },
       [AggMsg.event a.mNextMarker a.mLastState])
    else
      ({ a with mLastTime := a.mNextMarker }, [AggMsg.advance a.mNextMarker])
  else (a, [])

/-- LedsEventsAggregator::doAddEvent: update the window, store the new
state, and when no window is open any more open one ending at
time + mTimeWindow.  (isWindowOpen does not depend on mLastState.) -/
def aggDoAddEvent {LEDS : Nat} (a : LedsEventsAggregator LEDS) (time : Nat)
    (state : BitArray LEDS) : LedsEventsAggregator LEDS × List (AggMsg LEDS) :=
  match aggUpdateOpenedWindow a time with
  | (a1, ms) =>
    if a1.mLastTime < a1.mNextMarker then ({ a1 with mLastState := state }, ms)
    else ({ a1 with mLastState := state, mNextMarker := time + a1.mTimeWindow }, ms)

/-- LedsEventsAggregator::doAdvanceTime: update the window; when no
window remains open, pass the advance along. -/
def aggDoAdvanceTime {LEDS : Nat} (a : LedsEventsAggregator LEDS) (time : Nat) :
    LedsEventsAggregator LEDS × List (AggMsg LEDS) :=
  match aggUpdateOpenedWindow a time with
  | (a1, ms) =>
    if a1.mLastTime < a1.mNextMarker then (a1, ms)
    else (a1, ms ++ [AggMsg.advance time])

/-- EventConsumer::addEvent: causality check, doAddEvent, mLastTime
update. -/
def aggAddEvent {LEDS : Nat} (a : LedsEventsAggregator LEDS) (t : Nat)
    (s : BitArray LEDS) :
    Except String (LedsEventsAggregator LEDS × List (AggMsg LEDS)) :=
  if t < a.mLastTime then .error "Unable to add event that violates causality."
  else
    match aggDoAddEvent a t s with
    | (a3, ms) => .ok ({ a3 with mLastTime := t }, ms)

/-- EventConsumer::advanceTime: causality check, doAdvanceTime, mLastTime
update. -/
def aggAdvanceTime {LEDS : Nat} (a : LedsEventsAggregator LEDS) (t : Nat) :
    Except String (LedsEventsAggregator LEDS × List (AggMsg LEDS)) :=
  if t < a.mLastTime then .error "Unable to advance time to past, since it violates causality."
  else
    match aggDoAdvanceTime a t with
    | (a3, ms) => .ok ({ a3 with mLastTime := t }, ms)

def aggStep {LEDS : Nat} (a : LedsEventsAggregator LEDS) :
    AggOp LEDS → Except String (LedsEventsAggregator LEDS × List (AggMsg LEDS))
  | AggOp.event t s => aggAddEvent a t s
  | AggOp.advance t => aggAdvanceTime a t

/-- Feed a sequence of addEvent / advanceTime calls to the aggregator,
collecting everything it sends to its next consumer. -/
def aggRunOps {LEDS : Nat} (a : LedsEventsAggregator LEDS) :
    List (AggOp LEDS) → Except String (LedsEventsAggregator LEDS × List (AggMsg LEDS))
  | [] => .ok (a, [])
  | op :: rest =>
    match aggStep a op with
    | .error e => .error e
    | .ok (a1, ms1) =>
      match aggRunOps a1 rest with
      | .error e => .error e
      | .ok (a3, ms2) => .ok (a3, ms1 ++ ms2)

/-- State after the constructor LedsEventsAggregator(timeWindow):
marker 0, both states filled with OFF (= HIGH = 1), base mLastTime 0.
The constructor rejects timeWindow 0. -/
def aggInit (LEDS W : Nat) : LedsEventsAggregator LEDS :=
  ⟨W, 0, BitArray.ofFill LEDS true, BitArray.ofFill LEDS true, 0⟩

/-- Timestamps of the addEvent calls the aggregator made on its next
consumer, in order. -/
def aggEventTimes {LEDS : Nat} (ms : List (AggMsg LEDS)) : List Nat :=
  ms.filterMap (fun m => match m with | AggMsg.event t _ => some t | AggMsg.advance _ => none)

/-- Consecutive elements at least W apart, with an optional earlier
emission time in front. -/
def spacedFrom (W : Nat) : Option Nat → List Nat → Prop
  | _, [] => True
  | none, t :: r => spacedFrom W (some t) r
  | some M, t :: r => M + W ≤ t ∧ spacedFrom W (some t) r

instance (W : Nat) (o : Option Nat) (l : List Nat) : Decidable (spacedFrom W o l) := by
  induction l generalizing o with
  | nil =>
    cases o with
    | none => exact isTrue trivial
    | some x => exact isTrue trivial
  | cons t r ih =>
    cases o with
    | none => exact ih (some t)
    | some M => exact @instDecidableAnd _ _ (Nat.decLe _ _) (ih (some t))

theorem spacedFrom_cons (W : Nat) (M : Option Nat) (τ : Nat) (l : List Nat)
    (hM : ∀ x, M = some x → x + W ≤ τ) (hl : spacedFrom W (some τ) l) :
    spacedFrom W M (τ :: l) := by
  cases M with
  | none => exact hl
  | some x => exact ⟨hM x rfl, hl⟩

theorem aggEventTimes_append {LEDS : Nat} (ms1 ms2 : List (AggMsg LEDS)) :
    aggEventTimes (ms1 ++ ms2) = aggEventTimes ms1 ++ aggEventTimes ms2 :=
  List.filterMap_append ms1 ms2 _

/-- Branch equations of aggAddEvent, proved once so the step lemma can
rewrite with them. -/
theorem aggAddEvent_emit {LEDS : Nat} (a : LedsEventsAggregator LEDS) (t : Nat)
    (s : BitArray LEDS) (hc : ¬ t < a.mLastTime)
    (hC1 : a.mLastTime < a.mNextMarker ∧ a.mNextMarker ≤ t)
    (hbeq : BitArray.beq a.mLastState a.mLastEmittedState = false)
    (hW : 0 < a.mTimeWindow) :
    aggAddEvent a t s = Except.ok
      ({ a with mNextMarker := a.mNextMarker + a.mTimeWindow,
                mLastState := s,
                mLastEmittedState := a.mLastState,
                mLastTime := t },
       [AggMsg.event a.mNextMarker a.mLastState]) := by
  unfold aggAddEvent aggDoAddEvent aggUpdateOpenedWindow
  rw [if_neg hc, if_pos hC1, if_pos hbeq]
  have hlt : a.mNextMarker < a.mNextMarker + a.mTimeWindow := by omega
  simp [hlt]

theorem aggAddEvent_close_noemit {LEDS : Nat} (a : LedsEventsAggregator LEDS) (t : Nat)
    (s : BitArray LEDS) (hc : ¬ t < a.mLastTime)
    (hC1 : a.mLastTime < a.mNextMarker ∧ a.mNextMarker ≤ t)
    (hbeq : ¬ BitArray.beq a.mLastState a.mLastEmittedState = false) :
    aggAddEvent a t s = Except.ok
      ({ a with mNextMarker := t + a.mTimeWindow, mLastState := s, mLastTime := t },
       [AggMsg.advance a.mNextMarker]) := by
  unfold aggAddEvent aggDoAddEvent aggUpdateOpenedWindow
  rw [if_neg hc, if_pos hC1, if_neg hbeq]
  simp

theorem aggAddEvent_noclose_open {LEDS : Nat} (a : LedsEventsAggregator LEDS) (t : Nat)
    (s : BitArray LEDS) (hc : ¬ t < a.mLastTime)
    (hC1 : ¬ (a.mLastTime < a.mNextMarker ∧ a.mNextMarker ≤ t))
    (hopen : a.mLastTime < a.mNextMarker) :
    aggAddEvent a t s = Except.ok
      ({ a with mLastState := s, mLastTime := t }, []) := by
  unfold aggAddEvent aggDoAddEvent aggUpdateOpenedWindow
  rw [if_neg hc, if_neg hC1]
  simp [hopen]

theorem aggAddEvent_noclose_closed {LEDS : Nat} (a : LedsEventsAggregator LEDS) (t : Nat)
    (s : BitArray LEDS) (hc : ¬ t < a.mLastTime)
    (hC1 : ¬ (a.mLastTime < a.mNextMarker ∧ a.mNextMarker ≤ t))
    (hopen : ¬ a.mLastTime < a.mNextMarker) :
    aggAddEvent a t s = Except.ok
      ({ a with mLastState := s, mNextMarker := t + a.mTimeWindow, mLastTime := t }, []) := by
  unfold aggAddEvent aggDoAddEvent aggUpdateOpenedWindow
  rw [if_neg hc, if_neg hC1]
  simp [hopen]

/-- Branch equations of aggAdvanceTime. -/
theorem aggAdvanceTime_emit {LEDS : Nat} (a : LedsEventsAggregator LEDS) (t : Nat)
    (hc : ¬ t < a.mLastTime)
    (hC1 : a.mLastTime < a.mNextMarker ∧ a.mNextMarker ≤ t)
    (hbeq : BitArray.beq a.mLastState a.mLastEmittedState = false)
    (hW : 0 < a.mTimeWindow) :
    aggAdvanceTime a t = Except.ok
      ({ a with mNextMarker := a.mNextMarker + a.mTimeWindow,
                mLastEmittedState := a.mLastState,
                mLastTime := t },
       [AggMsg.event a.mNextMarker a.mLastState]) := by
  unfold aggAdvanceTime aggDoAdvanceTime aggUpdateOpenedWindow
  rw [if_neg hc, if_pos hC1, if_pos hbeq]
  have hlt : a.mNextMarker < a.mNextMarker + a.mTimeWindow := by omega
  simp [hlt]

theorem aggAdvanceTime_close_noemit {LEDS : Nat} (a : LedsEventsAggregator LEDS) (t : Nat)
    (hc : ¬ t < a.mLastTime)
    (hC1 : a.mLastTime < a.mNextMarker ∧ a.mNextMarker ≤ t)
    (hbeq : ¬ BitArray.beq a.mLastState a.mLastEmittedState = false) :
    aggAdvanceTime a t = Except.ok
      ({ a with mLastTime := t },
       [AggMsg.advance a.mNextMarker, AggMsg.advance t]) := by
  unfold aggAdvanceTime aggDoAdvanceTime aggUpdateOpenedWindow
  rw [if_neg hc, if_pos hC1, if_neg hbeq]
  simp

theorem aggAdvanceTime_noclose_open {LEDS : Nat} (a : LedsEventsAggregator LEDS) (t : Nat)
    (hc : ¬ t < a.mLastTime)
    (hC1 : ¬ (a.mLastTime < a.mNextMarker ∧ a.mNextMarker ≤ t))
    (hopen : a.mLastTime < a.mNextMarker) :
    aggAdvanceTime a t = Except.ok ({ a with mLastTime := t }, []) := by
  unfold aggAdvanceTime aggDoAdvanceTime aggUpdateOpenedWindow
  rw [if_neg hc, if_neg hC1]
  simp [hopen]

theorem aggAdvanceTime_noclose_closed {LEDS : Nat} (a : LedsEventsAggregator LEDS) (t : Nat)
    (hc : ¬ t < a.mLastTime)
    (hC1 : ¬ (a.mLastTime < a.mNextMarker ∧ a.mNextMarker ≤ t))
    (hopen : ¬ a.mLastTime < a.mNextMarker) :
    aggAdvanceTime a t = Except.ok ({ a with mLastTime := t }, [AggMsg.advance t]) := by
  unfold aggAdvanceTime aggDoAdvanceTime aggUpdateOpenedWindow
  rw [if_neg hc, if_neg hC1]
  simp [hopen]

/-- One public call preserves the marker invariant and emits at most one
event, which then lies at least W after the previous emission. -/
theorem aggStep_spec {LEDS : Nat} (W : Nat) (hW : 0 < W) (a : LedsEventsAggregator LEDS)
    (M : Option Nat) (hTW : a.mTimeWindow = W)
    (hM : ∀ x, M = some x → x + W ≤ a.mNextMarker)
    (op : AggOp LEDS) (a2 : LedsEventsAggregator LEDS) (ms : List (AggMsg LEDS))
    (h : aggStep a op = Except.ok (a2, ms)) :
    a2.mTimeWindow = W ∧
      ((aggEventTimes ms = [] ∧ ∀ x, M = some x → x + W ≤ a2.mNextMarker) ∨
       (∃ τ, aggEventTimes ms = [τ] ∧ (∀ x, M = some x → x + W ≤ τ) ∧
         τ + W ≤ a2.mNextMarker)) := by
  have hW2 : 0 < a.mTimeWindow := by omega
  rcases op with ⟨t, s⟩ | t
  · simp only [aggStep] at h
    by_cases hc : t < a.mLastTime
    · unfold aggAddEvent at h
      rw [if_pos hc] at h
      exact absurd h (by simp)
    · by_cases hC1 : a.mLastTime < a.mNextMarker ∧ a.mNextMarker ≤ t
      · by_cases hbeq : BitArray.beq a.mLastState a.mLastEmittedState = false
        · rw [aggAddEvent_emit a t s hc hC1 hbeq hW2] at h
          simp only [Except.ok.injEq, Prod.mk.injEq] at h
          obtain ⟨ha2, hms⟩ := h
          subst ha2
          subst hms
          exact ⟨by simpa using hTW,
            Or.inr ⟨a.mNextMarker, rfl, fun x hx => hM x hx, by simp [hTW]⟩⟩
        · rw [aggAddEvent_close_noemit a t s hc hC1 hbeq] at h
          simp only [Except.ok.injEq, Prod.mk.injEq] at h
          obtain ⟨ha2, hms⟩ := h
          subst ha2
          subst hms
          refine ⟨by simpa using hTW, Or.inl ⟨rfl, fun x hx => ?_⟩⟩
          have h1 := hM x hx
          simp [hTW]
          omega
      · by_cases hopen : a.mLastTime < a.mNextMarker
        · rw [aggAddEvent_noclose_open a t s hc hC1 hopen] at h
          simp only [Except.ok.injEq, Prod.mk.injEq] at h
          obtain ⟨ha2, hms⟩ := h
          subst ha2
          subst hms
          exact ⟨by simpa using hTW, Or.inl ⟨rfl, fun x hx => by simpa using hM x hx⟩⟩
        · rw [aggAddEvent_noclose_closed a t s hc hC1 hopen] at h
          simp only [Except.ok.injEq, Prod.mk.injEq] at h
          obtain ⟨ha2, hms⟩ := h
          subst ha2
          subst hms
          refine ⟨by simpa using hTW, Or.inl ⟨rfl, fun x hx => ?_⟩⟩
          have h1 := hM x hx
          simp [hTW]
          omega
  · simp only [aggStep] at h
    by_cases hc : t < a.mLastTime
    · unfold aggAdvanceTime at h
      rw [if_pos hc] at h
      exact absurd h (by simp)
    · by_cases hC1 : a.mLastTime < a.mNextMarker ∧ a.mNextMarker ≤ t
      · by_cases hbeq : BitArray.beq a.mLastState a.mLastEmittedState = false
        · rw [aggAdvanceTime_emit a t hc hC1 hbeq hW2] at h
          simp only [Except.ok.injEq, Prod.mk.injEq] at h
          obtain ⟨ha2, hms⟩ := h
          subst ha2
          subst hms
          exact ⟨by simpa using hTW,
            Or.inr ⟨a.mNextMarker, rfl, fun x hx => hM x hx, by simp [hTW]⟩⟩
        · rw [aggAdvanceTime_close_noemit a t hc hC1 hbeq] at h
          simp only [Except.ok.injEq, Prod.mk.injEq] at h
          obtain ⟨ha2, hms⟩ := h
          subst ha2
          subst hms
          exact ⟨by simpa using hTW, Or.inl ⟨rfl, fun x hx => by simpa using hM x hx⟩⟩
      · by_cases hopen : a.mLastTime < a.mNextMarker
        · rw [aggAdvanceTime_noclose_open a t hc hC1 hopen] at h
          simp only [Except.ok.injEq, Prod.mk.injEq] at h
          obtain ⟨ha2, hms⟩ := h
          subst ha2
          subst hms
          exact ⟨by simpa using hTW, Or.inl ⟨rfl, fun x hx => by simpa using hM x hx⟩⟩
        · rw [aggAdvanceTime_noclose_closed a t hc hC1 hopen] at h
          simp only [Except.ok.injEq, Prod.mk.injEq] at h
          obtain ⟨ha2, hms⟩ := h
          subst ha2
          subst hms
          exact ⟨by simpa using hTW, Or.inl ⟨rfl, fun x hx => by simpa using hM x hx⟩⟩

theorem aggRun_spaced {LEDS : Nat} (W : Nat) (hW : 0 < W) :
    ∀ (ops : List (AggOp LEDS)) (a : LedsEventsAggregator LEDS) (M : Option Nat),
      a.mTimeWindow = W → (∀ x, M = some x → x + W ≤ a.mNextMarker) →
      ∀ a2 ms, aggRunOps a ops = Except.ok (a2, ms) →
        spacedFrom W M (aggEventTimes ms) := by
  intro ops
  induction ops with
  | nil =>
    intro a M hTW hM a2 ms h
    simp only [aggRunOps, Except.ok.injEq, Prod.mk.injEq] at h
    obtain ⟨_, hms⟩ := h
    subst hms
    cases M with
    | none => exact trivial
    | some x => exact trivial
  | cons op rest ih =>
    intro a M hTW hM a2 ms h
    unfold aggRunOps at h
    rcases hstep : aggStep a op with e | ⟨a1, ms1⟩
    · rw [hstep] at h
      simp at h
    · rw [hstep] at h
      have h2 : (match aggRunOps a1 rest with
          | Except.error e =>
            (Except.error e : Except String (LedsEventsAggregator LEDS × List (AggMsg LEDS)))
          | Except.ok (a3, ms2) => Except.ok (a3, ms1 ++ ms2)) = Except.ok (a2, ms) := h
      rcases hrec : aggRunOps a1 rest with e | ⟨a3, ms2⟩
      · rw [hrec] at h2
        simp at h2
      · rw [hrec] at h2
        simp only [Except.ok.injEq, Prod.mk.injEq] at h2
        obtain ⟨_, hms⟩ := h2
        subst hms
        obtain ⟨hTW2, hcase⟩ := aggStep_spec W hW a M hTW hM op a1 ms1 hstep
        rw [aggEventTimes_append]
        rcases hcase with ⟨hnil, hM2⟩ | ⟨τ, hone, hτM, hτnext⟩
        · rw [hnil, List.nil_append]
          exact ih a1 M hTW2 hM2 a3 ms2 hrec
        · rw [hone, List.cons_append, List.nil_append]
          apply spacedFrom_cons W M τ _ hτM
          apply ih a1 (some τ) hTW2 _ a3 ms2 hrec
          intro x hx
          cases hx
          exact hτnext

/-- C4: from the constructor state with time window W, for every
causality-respecting input sequence of addEvent and advanceTime calls
(one on which the run succeeds), any two consecutive events the
aggregator emits to its next consumer have timestamps at least W apart. -/
theorem aggregator_consecutive_emissions_spaced (LEDS W : Nat) (hW : 0 < W)
    (ops : List (AggOp LEDS)) (a2 : LedsEventsAggregator LEDS) (ms : List (AggMsg LEDS))
    (h : aggRunOps (aggInit LEDS W) ops = Except.ok (a2, ms)) :
    spacedFrom W none (aggEventTimes ms) :=
  aggRun_spaced W hW ops (aggInit LEDS W) none rfl (fun x hx => by simp at hx) a2 ms h

/-- Witness for C4: a two-call run with window 10 that emits one event. -/
theorem aggregator_consecutive_emissions_spaced_witness :
    (0:Nat) < 10 ∧
      spacedFrom 10 none (aggEventTimes [AggMsg.event 15 (BitArray.ofFill 4 false)]) :=
  ⟨by decide,
    aggregator_consecutive_emissions_spaced 4 10 (by decide)
      [AggOp.event 5 (BitArray.ofFill 4 false), AggOp.advance 40]
      ⟨10, 25, BitArray.ofFill 4 false, BitArray.ofFill 4 false, 40⟩
      [AggMsg.event 15 (BitArray.ofFill 4 false)] (by rfl)⟩

end Moccarduino
